import Mathlib

/-!
Verification development for the AI_Hospital collaborative-consultation code
(`src/agents/doctor.py`, `src/agents/host.py`, `src/agents/patient.py`,
`src/hospital/collaborative_consultation_star.py`).

Texts are modelled as `List Char`.  Python string primitives used by the
sources are given executable counterparts:

* `str.strip` / `str.rstrip`            -> `stripC` / `stripR`
* substring search (`in`, `re.findall`
  with a literal-prefixed lazy pattern) -> `findSub` / `hasSub`
* `re.sub(pat, '', s)` on a literal     -> `removeSubAll`
* `str.split(sep)` segments             -> computed with `findSub` / `take` / `drop`

The file is laid out with all definitions first, followed by all theorems.
-/

abbrev Txt := List Char

def txt (s : String) : Txt := s.toList

/-- Python `str.strip` on the left: drop leading whitespace. -/
def stripL (l : Txt) : Txt := l.dropWhile Char.isWhitespace

/-- Python `str.rstrip`: drop trailing whitespace. -/
def stripR (l : Txt) : Txt := (l.reverse.dropWhile Char.isWhitespace).reverse

/-- Python `str.strip`: drop whitespace on both ends. -/
def stripC (l : Txt) : Txt := stripR (stripL l)

/-- `leads p l` holds when `p` is a prefix of `l`. -/
def leads : Txt → Txt → Bool
  | [], _ => true
  | _ :: _, [] => false
  | a :: p, b :: l => a == b && leads p l

/-- Index of the first occurrence of `pat` in `l` (Python `str.find`,
leftmost match position of a literal regex). -/
def findSub : Txt → Txt → Option Nat
  | [], pat => if pat = [] then some 0 else none
  | c :: t, pat =>
    if leads pat (c :: t) then some 0 else (findSub t pat).map (· + 1)

/-- Python `pat in l`. -/
def hasSub (l pat : Txt) : Bool := (findSub l pat).isSome

/-- `Misses a b pat`: no occurrence of `pat` in `a ++ b` starts inside `a`. -/
def Misses (a b pat : Txt) : Prop :=
  ∀ i, i < a.length → leads pat (a.drop i ++ b) = false

/-- Decidable sufficient condition for `Misses a b pat` holding for every `b`:
any candidate start inside `a` has a mismatch that falls inside `a`. -/
def missAllB (a pat : Txt) : Bool :=
  (List.range a.length).all fun i =>
    decide (∃ j, j < pat.length ∧ i + j < a.length ∧ a.getD (i + j) ' ' ≠ pat.getD j ' ')

def removeSubAllF : Nat → Txt → Txt → Txt
  | 0, _, l => l
  | fuel + 1, pat, l =>
    match findSub l pat with
    | none => l
    | some i => l.take i ++ removeSubAllF fuel pat (l.drop (i + pat.length))

/-- `re.sub(pat, '', l)` for a literal `pat`: delete every leftmost,
non-overlapping occurrence.  Each deletion consumes at least one character of
`l` when `pat` is nonempty, so `l.length` steps of fuel always suffice. -/
def removeSubAll (pat : Txt) (l : Txt) : Txt :=
  if pat = [] then l else removeSubAllF l.length pat l

def removeHash (l : Txt) : Txt := l.filter (· != '#')

/-! ### The five diagnosis-record sections and their `#…#` labels -/

inductive Key
  | sym
  | exam
  | res
  | basis
  | plan
deriving DecidableEq

instance : Fintype Key :=
  ⟨⟨{Key.sym, Key.exam, Key.res, Key.basis, Key.plan}, by decide⟩, fun k => by
    cases k <;> decide⟩

/-- The Chinese section names `症状 / 辅助检查 / 诊断结果 / 诊断依据 / 治疗方案`. -/
def keyStr : Key → Txt
  | .sym => txt "症状"
  | .exam => txt "辅助检查"
  | .res => txt "诊断结果"
  | .basis => txt "诊断依据"
  | .plan => txt "治疗方案"

/-- Canonical iteration order of the five keys, as in the Python lists. -/
def keyOrder : List Key := [.sym, .exam, .res, .basis, .plan]

/-- The section delimiter `#症状#` etc. -/
def labelOf (k : Key) : Txt := '#' :: (keyStr k ++ ['#'])

def nlHash : Txt := ['\n', '#']

def nlnl : Txt := ['\n', '\n']

/-! ### `Doctor.parse_diagnosis` (doctor.py lines 135-147)

`diagnosis = diagnosis + "\n#"`, then per key the regex
`\#key\#(.*?)\n\#` with `re.S`: leftmost match starts at the first label
occurrence; the lazy group stops at the first following `"\n#"`. -/

def doctorExtract (t : Txt) (k : Key) : Option Txt :=
  let s := t ++ nlHash
  match findSub s (labelOf k) with
  | none => none
  | some i =>
    let rest := s.drop (i + (labelOf k).length)
    match findSub rest nlHash with
    | none => none
    | some j => some (rest.take j)

/-- The per-section post-processing: `.strip()`, `re.sub(label,'')`,
`re.sub(r"\#",'')`, `.strip()`. -/
def doctorPost (k : Key) (v : Txt) : Txt :=
  stripC (removeHash (removeSubAll (labelOf k) (stripC v)))

/-- `Doctor.parse_diagnosis` per key: `some v` exactly when the key appears in
the returned dict. -/
def parse_diagnosis (t : Txt) (k : Key) : Option Txt :=
  (doctorExtract t k).map (doctorPost k)

/-- A diagnosis record (`doctor.diagnosis[patient_id]`): a Python dict over the
five keys; an absent key is `none`. -/
def DiagRec := Key → Option Txt

/-- `self.diagnosis[patient_id].update(self.parse_diagnosis(diagnosis))` —
the text branch of `Doctor.load_diagnosis` (doctor.py lines 109-113) and the
final update of `revise_diagnosis_with_new_info` (lines 458-459). -/
def load_diagnosis (D : DiagRec) (t : Txt) : DiagRec :=
  fun k =>
    match parse_diagnosis t k with
    | some v => some v
    | none => D k

/-! ### `Host.parse_diagnosis` (host.py lines 498-516)

`response.strip() + "\n\n"`, then per key the regex `\#key\#(.*?)(?:\#|$)`
with `re.S`: the lazy group stops at the first `#` after the label, or at the
end of the text. -/

def hostExtract (t : Txt) (k : Key) : Option Txt :=
  let s := stripC t ++ nlnl
  match findSub s (labelOf k) with
  | none => none
  | some i => some ((s.drop (i + (labelOf k).length)).takeWhile (· != '#'))

def doneMarker : Txt := txt "<诊断完成>"

/-- `v` ends with `suf`. -/
def trails (suf l : Txt) : Bool := leads suf.reverse l.reverse

/-- `re.sub(r'<诊断完成>\s*$', '', value)`: the leftmost viable match removes
the final marker occurrence together with the trailing whitespace after it. -/
def removeDoneMarkerEnd (v : Txt) : Txt :=
  let r := stripR v
  if trails doneMarker r then r.take (r.length - doneMarker.length) else v

/-- Per-section post-processing of `Host.parse_diagnosis`:
`re.sub(label,'')`, `.strip()`, marker removal, `.strip()`. -/
def hostPost (k : Key) (v : Txt) : Txt :=
  stripC (removeDoneMarkerEnd (stripC (removeSubAll (labelOf k) v)))

/-- `Host.parse_diagnosis` per key; a missing section becomes `""`.  The code
iterates over 诊断结果 / 诊断依据 / 治疗方案 (`hostKeys`). -/
def host_parse_diagnosis (t : Txt) (k : Key) : Txt :=
  match hostExtract t k with
  | none => []
  | some v => hostPost k v

def hostKeys : List Key := [.res, .basis, .plan]

/-! ### `Host.parse_symptom_and_examination_DEPRECATED` (host.py lines 518-551)

Regex `\#key\#(.*?)\n\n` over `response.strip() + "\n\n"` for the keys
症状 / 辅助检查 / 询问病人 / 询问检查员; a missing mandatory section
(症状 or 辅助检查) raises `Exception(response)`. -/

def qPatientLabel : Txt := txt "#询问病人#"

def qReporterLabel : Txt := txt "#询问检查员#"

def sectionExtractNN (s : Txt) (lab : Txt) : Option Txt :=
  match findSub s lab with
  | none => none
  | some i =>
    let rest := s.drop (i + lab.length)
    match findSub rest nlnl with
    | none => none
    | some j => some (rest.take j)

/-- Post-processing in the deprecated strict parser: `re.sub(label,'')`,
`re.sub(r"\#",'')`, `.strip()`. -/
def strictPost (lab : Txt) (v : Txt) : Txt :=
  stripC (removeHash (removeSubAll lab v))

/-- Optional-query thresholding: queries shorter than 5 characters become
`None`, otherwise they are stripped. -/
def queryThreshold (q : Option Txt) : Option Txt :=
  match q with
  | none => none
  | some v => if v.length < 5 then none else some (stripC v)

structure SymExamParse where
  symptom : Txt
  examination : Txt
  query_to_patient : Option Txt
  query_to_reporter : Option Txt

/-- The strict (deprecated) host-side parser: `Except.error` models the raised
`Exception(response)`. -/
def parse_symptom_and_examination_DEPRECATED (t : Txt) :
    Except Txt SymExamParse :=
  match sectionExtractNN (stripC t ++ nlnl) (labelOf .sym),
      sectionExtractNN (stripC t ++ nlnl) (labelOf .exam) with
  | some vs, some ve =>
    .ok ⟨strictPost (labelOf .sym) vs, strictPost (labelOf .exam) ve,
      queryThreshold
        ((sectionExtractNN (stripC t ++ nlnl) qPatientLabel).map
          (strictPost qPatientLabel)),
      queryThreshold
        ((sectionExtractNN (stripC t ++ nlnl) qReporterLabel).map
          (strictPost qReporterLabel))⟩
  | _, _ => .error (stripC t ++ nlnl)


/-! ### `Doctor._format_diagnosis` (doctor.py lines 390-405) -/

/-- Concatenate `#key#\n{value}\n\n` for each truthy (nonempty) field in the
canonical key order, then `rstrip`. -/
def format_diagnosis (R : Key → Txt) : Txt :=
  stripR (keyOrder.foldl
    (fun acc k => if R k = [] then acc else acc ++ (labelOf k ++ '\n' :: (R k ++ nlnl)))
    [])

/-! ### `Patient.parse_role_content` (patient.py lines 97-139) -/

def tagR : Txt := txt "<对检查员讲>"

def tagD : Txt := txt "<对医生讲>"

inductive RouteResult
  | toDoctor (content : Txt)
  | toReporter (content : Txt)
  | dual (reporter doctor : Txt)
deriving DecidableEq

/-- Python `s.split(sep)[1] if len(parts) > 1 else ""`: the text between the
first and second occurrence of `sep` (to the end when `sep` occurs once),
`""` when `sep` does not occur. -/
def splitSecond (s sep : Txt) : Txt :=
  match findSub s sep with
  | none => []
  | some i =>
    let rest := s.drop (i + sep.length)
    match findSub rest sep with
    | none => rest
    | some j => rest.take j

/-- `Patient.parse_role_content`: route a patient reply to the doctor, the
reporter, or both, based on the two tags. -/
def parse_role_content (resp : Txt) : RouteResult :=
  let s := stripC resp
  if hasSub s tagR && hasSub s tagD then
    let before := stripC (s.take ((findSub s tagR).getD 0))
    let after := splitSecond s tagR
    if hasSub after tagD then
      .dual (stripC (after.take ((findSub after tagD).getD 0)))
        (stripC (splitSecond after tagD))
    else if hasSub before tagD then
      .dual (stripC after) (stripC (splitSecond before tagD))
    else
      .dual (stripC after) []
  else if hasSub s tagR then
    .toReporter (stripC (removeSubAll tagR s))
  else
    .toDoctor (stripC (removeSubAll tagD s))

/-! ### `Doctor.revise_diagnosis_by_others_in_parallel` user content
(doctor.py lines 286-303) -/

/-- Peer-doctor data that the revision prompt would show: the peer's name and
its 诊断结果 / 诊断依据 / 治疗方案 strings. -/
structure PeerView where
  name : Txt
  res : Txt
  basis : Txt
  plan : Txt

/-- One peer block of the revision prompt (lines 288-294). -/
def peerBlock (p : PeerView) : Txt :=
  txt "##医生" ++ p.name ++ txt "##\n\n#诊断结果#\n" ++ p.res
    ++ txt "\n\n#诊断依据#\n" ++ p.basis ++ txt "\n\n#治疗方案#\n" ++ p.plan
    ++ txt "\n\n"

/-- The critique suffix (lines 296-298): appended only when the critique is
truthy and is not one of the two bare markers. -/
def critiqueSuffix (critique : Txt) : Txt :=
  if critique ≠ [] ∧ critique ≠ txt "#继续#" ∧ critique ≠ txt "#结束#" then
    txt "\n##会诊主持医生的分析##\n" ++ critique
  else []

/-- The user-message content of the revision call: the `for` loop over the
passed doctor list, then the critique suffix. -/
def reviseUserContent (doctors : List PeerView) (critique : Txt) : Txt :=
  (doctors.foldl (fun acc p => acc ++ peerBlock p) []) ++ critiqueSuffix critique

/-! ### `Host.get_initial_summary_from_doctors` prompt construction
(host.py lines 239-293) -/

/-- A doctor as the host sees it: its name and its per-patient diagnosis dict
(`get_diagnosis_by_patient_id(pid, key)` is a dict `.get`, hence `Option`). -/
structure DocView where
  name : Txt
  diag : Nat → Key → Option Txt

/-- A patient object: id, profile, and the hidden medical record. -/
structure PatientObj where
  id : Nat
  profile : Txt
  medicalRecords : Txt

structure Msg where
  role : Txt
  content : Txt
deriving DecidableEq

/-- The per-doctor 症状 / 辅助检查 paragraph (lines 256-262); a `None` field is
skipped. -/
def docSymExamBlock (pid : Nat) (d : DocView) : Txt :=
  txt "##医生" ++ d.name ++ txt "##\n"
  ++ (match d.diag pid .sym with
      | some v => txt "#症状#\n" ++ v ++ txt "\n\n"
      | none => [])
  ++ (match d.diag pid .exam with
      | some v => txt "#辅助检查#\n" ++ v ++ txt "\n\n"
      | none => [])

def sepJoin (sep : Txt) : List Txt → Txt
  | [] => []
  | [x] => x
  | x :: y :: xs => x ++ sep ++ sepJoin sep (y :: xs)

/-- The name-joining of lines 264-268.  (For fewer than two doctors the Python
indexing would raise; the model totalises with empty defaults — the scenario
always runs at least two doctors.) -/
def joinDoctorNames (names : List Txt) : Txt :=
  if 2 < names.length then
    sepJoin (txt "、") (names.take (names.length - 2)) ++ txt "、"
      ++ names.getD (names.length - 2) [] ++ txt "和"
      ++ names.getD (names.length - 1) []
  else
    names.getD 0 [] ++ txt "和" ++ names.getD 1 []

/-- The fixed system text of the phase-1 summary prompt (lines 274-288), with
the joined doctor names spliced in. -/
def summarySystemContent (names : Txt) : Txt :=
  txt "你是一个资深的主任医生，负责主持会诊。\n"
  ++ txt "你正在主持一场医生针对患者病情的会诊，参与的有" ++ names ++ txt "。\n"
  ++ txt "【重要】你只能使用医生们提供的信息，不能直接查看患者病历或检查结果。\n\n"
  ++ txt "你的任务：\n"
  ++ txt "(1) 汇总所有医生提到的#症状#和#辅助检查#信息\n"
  ++ txt "(2) 识别医生之间的一致信息和不一致信息\n"
  ++ txt "(3) 如果存在不一致或遗漏，决定是否需要向患者询问\n\n"
  ++ txt "请按照以下格式输出：\n"
  ++ txt "#初步汇总#\n##症状##\n(1) xxx\n(2) xxx\n\n##辅助检查##\n(1) xxx\n(2) xxx\n\n"
  ++ txt "#一致性分析#\n"
  ++ txt "[描述医生之间的一致之处和不一致之处。如果所有信息一致，输出\"医生们的信息完全一致\"]\n\n"
  ++ txt "#是否需要询问患者#\n"
  ++ txt "[如果需要询问患者以澄清不一致或补充信息，输出具体问题；如果不需要，输出\"不需要\"]\n"

/-- The messages `Host.get_initial_summary_from_doctors` sends to its engine:
built from the doctors' self-reported 症状 / 辅助检查 fields and names only;
the patient argument contributes nothing but its id. -/
def get_initial_summary_messages (doctors : List DocView) (patient : PatientObj) :
    List Msg :=
  [⟨txt "system",
    summarySystemContent (joinDoctorNames (doctors.map (fun d => txt "医生" ++ d.name)))⟩,
   ⟨txt "user", doctors.foldl (fun acc d => acc ++ docSymExamBlock patient.id d) []⟩]

/-! ### The doctor token ledger (doctor.py lines 71-78, 181-186, 230-237,
306-313, 376-383, 448-455) -/

inductive TokTag
  | speakTag
  | revisionBySymExam
  | revisionByOthersParallel
  | revisionByOthersParallelCritique
  | revisionWithNewInfo
deriving DecidableEq

structure Interaction where
  input_tokens : Nat
  output_tokens : Nat
  tag : TokTag
  turn : Option Nat
deriving DecidableEq

/-- `self.token_usage[patient_id]` for one doctor and one patient. -/
structure Ledger where
  total_input_tokens : Nat
  total_output_tokens : Nat
  interactions : List Interaction
deriving DecidableEq

/-- The `default_tokens_factory` of `Doctor.__init__`. -/
def Ledger.start : Ledger := ⟨0, 0, []⟩

/-- One token-recording operation and the token counts the engine returned. -/
structure TokOp where
  tag : TokTag
  turn : Option Nat
  promptTokens : Nat
  completionTokens : Nat

/-- The uniform recording step shared by `Doctor.speak` and the four
`revise_*` methods: add the prompt/completion counts to the running totals and
append exactly one interaction record. -/
def recordTokens (st : Ledger) (op : TokOp) : Ledger :=
  { total_input_tokens := st.total_input_tokens + op.promptTokens
    total_output_tokens := st.total_output_tokens + op.completionTokens
    interactions :=
      st.interactions ++ [⟨op.promptTokens, op.completionTokens, op.tag, op.turn⟩] }

/-- The ledger after a sequence of recording operations on one patient key. -/
def runOps (ops : List TokOp) : Ledger := ops.foldl recordTokens Ledger.start

/-- The ledger invariant: the totals equal the sums over the interaction
records. -/
def ledgerInv (st : Ledger) : Prop :=
  st.total_input_tokens = (st.interactions.map Interaction.input_tokens).sum ∧
  st.total_output_tokens = (st.interactions.map Interaction.output_tokens).sum

/-! ### The Star orchestrator discussion loop
(`CollaborativeConsultationStar._run`, collaborative_consultation_star.py
lines 577-1215)

The language-model calls are oracles: `measure_agreement` returns either the
exact end marker, the exact continue marker, or (in critique mode) critique
text; `analyze_discussion_state` returns a parsed decision.  Control flow
depends on the oracles only through the tests the Python code makes, which the
definitions below reproduce; prompt/response payloads that do not influence
control are omitted. -/

/-- A `Host.measure_agreement` return value. -/
inductive MOut
  | agreeEnd
  | contMarker
  | critique (t : Txt)
deriving DecidableEq

/-- The in-loop consensus test `"#结束#" in host_measurement` (line 921 — a
substring check). -/
def MOut.hasEnd : MOut → Bool
  | .agreeEnd => true
  | .contMarker => false
  | .critique t => hasSub t (txt "#结束#")

/-- Action component of a parsed `analyze_discussion_state` decision. -/
inductive HAct
  | queryPatient
  | continueDiscussion
  | finalize
deriving DecidableEq

structure HDecision where
  act : HAct
  reason : Txt
  query : Txt
deriving DecidableEq

inductive FinKind
  | viaHistory
  | viaFallback
deriving DecidableEq

/-- Observable events of one patient's discussion phase. -/
inductive Ev
  | measured (m : MOut)
  | analyzed (a : HAct)
  | revised (turn : Nat) (peers : List Nat)
  | revisedInfo (turn : Nat)
  | finalized (k : FinKind)
deriving DecidableEq

/-- The oracle: outcomes of the model calls.  `loopAnalyze k` /
`loopMeasure k` / `loopConsAnalyze k` are the call results in loop iteration
`k`; entries of calls that are never made are irrelevant. -/
structure Oracle where
  measure1 : MOut
  analyze1 : HDecision
  loopAnalyze : Nat → HDecision
  loopMeasure : Nat → MOut
  loopConsAnalyze : Nat → HDecision

/-- Turn-1 patient query condition (lines 639-641): exact end marker,
`query_patient` decision, nonempty query text. -/
def turn1GotInfo (o : Oracle) : Bool :=
  decide (o.measure1 = .agreeEnd ∧ o.analyze1.act = .queryPatient ∧ o.analyze1.query ≠ [])

/-- The `initial_host_decision` action (lines 670-708). -/
def initialAction (o : Oracle) : Txt :=
  if o.measure1 = .agreeEnd then
    if turn1GotInfo o then txt "update_with_patient_info"
    else if o.analyze1.act = .queryPatient then txt "begin_discussion"
    else if o.analyze1.act = .finalize then txt "finalize"
    else txt "begin_discussion"
  else txt "begin_discussion"

/-- One loop iteration (lines 803-1164): either the pending-patient-info
branch or a normal discussion turn with its three oracle outcomes. -/
inductive Blk
  | pend (turn : Nat)
  | norm (turn : Nat) (d : HDecision) (m : MOut) (ca : HDecision)
deriving DecidableEq

/-- `turn_new_info` is set in a normal turn (lines 946-947): consensus plus a
`query_patient` decision with a nonempty query. -/
def normNewInfo (m : MOut) (ca : HDecision) : Bool :=
  m.hasEnd && decide (ca.act = .queryPatient) && decide (ca.query ≠ [])

/-- `discussion_ended` at the end of the iteration.  In the consensus branch
the decision chain of lines 1048-1087 applies; in the no-consensus branch the
flag keeps the value set at line 876 (`analyze` said finalize) — it is never
reset there. -/
def blkEnds : Blk → Bool
  | .pend _ => true
  | .norm _ d m ca =>
    if m.hasEnd then
      if normNewInfo m ca then false
      else if ca.act = .queryPatient then false
      else if ca.act = .finalize then true
      else false
    else decide (d.act = .finalize)

/-- `pending_patient_info` handed to the next iteration (line 1039). -/
def blkPendOut : Blk → Bool
  | .pend _ => false
  | .norm _ _ m ca => normNewInfo m ca

/-- `final_turn_number` in force when the iteration ends the discussion:
`current_turn + 1` from lines 853 / 1076, or the stale `current_turn` from
line 881 on the no-consensus path. -/
def blkFinalTurn : Blk → Nat
  | .pend t => t + 1
  | .norm t _ m _ => if m.hasEnd then t + 1 else t

/-- The `host_decision["action"]` stored in the turn record. -/
def blkDecision : Blk → Txt
  | .pend _ => txt "finalize_with_patient_info"
  | .norm _ _ m ca =>
    if m.hasEnd then
      if normNewInfo m ca then txt "update_with_patient_info"
      else if ca.act = .queryPatient then txt "continue_discussion"
      else if ca.act = .finalize then txt "finalize_after_discussion"
      else txt "continue_discussion"
    else txt "continue_discussion"

/-- The events of one iteration, in program order: the opening
`analyze_discussion_state`, the star-mode revision round (empty peer list,
lines 886-894), the `measure_agreement` call, the consensus-path
`analyze_discussion_state`, and the finalize when the iteration ends. -/
def blkEvs : Blk → List Ev
  | .pend t => [.revisedInfo t, .finalized .viaHistory]
  | .norm t d m ca =>
    [.analyzed d.act, .revised t [], .measured m]
    ++ (if m.hasEnd then [.analyzed ca.act] else [])
    ++ (if blkEnds (.norm t d m ca) then [.finalized .viaHistory] else [])

/-- A record appended to `diagnosis_in_discussion`: its turn number and the
stored decision action. -/
structure TurnRec where
  turn : Nat
  action : Txt
deriving DecidableEq

/-- The records one iteration appends: its own turn record (lines 844-850 /
1095-1101) plus, when it ends the discussion, the final reporting record with
`final_turn_number` (lines 1144-1151). -/
def blkRecs : Blk → List TurnRec
  | .pend t => [⟨t, txt "finalize_with_patient_info"⟩, ⟨t + 1, txt "finalize"⟩]
  | .norm t d m ca =>
    ⟨t, blkDecision (.norm t d m ca)⟩ ::
      (if blkEnds (.norm t d m ca) then [⟨blkFinalTurn (.norm t d m ca), txt "finalize"⟩]
       else [])

/-- The `for k in range(max_discussion_turn)` loop, entered only when turn 1
did not end with the exact end marker.  `k` is the Python loop counter
(`current_turn = k + 2`); the boolean is `pending_patient_info`. -/
def runLoop (o : Oracle) : Nat → Nat → Bool → List Blk
  | 0, _, _ => []
  | fuel + 1, k, pending =>
    if pending then [.pend (k + 2)]
    else
      let b := Blk.norm (k + 2) (o.loopAnalyze k) (o.loopMeasure k) (o.loopConsAnalyze k)
      if blkEnds b then [b]
      else b :: runLoop o fuel (k + 1) (blkPendOut b)

/-- Whether the loop finalized (otherwise the fallback of line 1209 runs). -/
def loopEnded (bs : List Blk) : Bool :=
  match bs.getLast? with
  | some b => blkEnds b
  | none => false

/-- The event trace of the discussion phase: turn-1 measurement and analysis,
then either the direct finalize path (line 1165, exact end marker at turn 1)
or the turn-1 phase-2 revision followed by the loop (line 797), with the
fallback finalize when the budget is exhausted. -/
def starTrace (o : Oracle) (maxTurn : Nat) : List Ev :=
  [.measured o.measure1, .analyzed o.analyze1.act]
  ++ (if o.measure1 = .agreeEnd then
        (if turn1GotInfo o then [.revisedInfo 1] else []) ++ [.finalized .viaHistory]
      else
        Ev.revised 1 [] ::
          ((runLoop o maxTurn 0 false).flatMap blkEvs
            ++ (if loopEnded (runLoop o maxTurn 0 false) then []
                else [.finalized .viaFallback])))

/-- The `diagnosis_in_discussion` records: the turn-1 record (lines 710-718),
then either the direct final record with `final_turn_number = 1`
(lines 1169-1206) or the loop records. -/
def starHist (o : Oracle) (maxTurn : Nat) : List TurnRec :=
  ⟨1, initialAction o⟩ ::
    (if o.measure1 = .agreeEnd then [⟨1, txt "finalize"⟩]
     else (runLoop o maxTurn 0 false).flatMap blkRecs)

/-- The `turn` fields of one run's discussion history. -/
def turnsOf (o : Oracle) (maxTurn : Nat) : List Nat :=
  (starHist o maxTurn).map TurnRec.turn

def isRevision : Ev → Bool
  | .revised _ _ => true
  | .revisedInfo _ => true
  | _ => false

def measFlag : Ev → Option Bool
  | .measured m => some m.hasEnd
  | _ => none

def analFlag : Ev → Option Bool
  | .analyzed a => some (decide (a = .finalize))
  | _ => none

/-- Whether the last measurement before a point returned the end marker. -/
def lastMeasEnd (l : List Ev) : Option Bool := (l.filterMap measFlag).getLast?

/-- Whether the last analyze decision before a point was `finalize`. -/
def lastAnalFin (l : List Ev) : Option Bool := (l.filterMap analFlag).getLast?

/-- Claim C1 as stated, over a discussion trace: (a) after a continue result
from `measure_agreement` some revision round occurs before any later finalize
reached through the history path (budget-exhaustion fallback finalizes
excepted, as the claim allows them); (b) every history-path finalize directly
follows an end result (no measurement in between). -/
def ClaimC1 (tr : List Ev) : Prop :=
  (∀ pre m mid post,
      tr = pre ++ .measured m :: (mid ++ .finalized .viaHistory :: post) →
      m.hasEnd = false → mid.any isRevision = true) ∧
  (∀ pre post, tr = pre ++ .finalized .viaHistory :: post →
      lastMeasEnd pre = some true)

/-- The amended C1: a history-path finalize may also be licensed by the last
`analyze_discussion_state` decision before it being `finalize` (the line-876
path, which the no-consensus branch never resets). -/
def AmendedC1 (tr : List Ev) : Prop :=
  (∀ pre m mid post,
      tr = pre ++ .measured m :: (mid ++ .finalized .viaHistory :: post) →
      m.hasEnd = false →
      mid.any isRevision = true ∨
        lastAnalFin (pre ++ .measured m :: mid) = some true) ∧
  (∀ pre post, tr = pre ++ .finalized .viaHistory :: post →
      lastMeasEnd pre = some true ∨ lastAnalFin pre = some true)

/-- Claim C2 as stated: the turn fields are exactly `1, 2, 3, …`. -/
def ClaimC2 (l : List Nat) : Prop := l = List.range' 1 l.length


/-- Claim C6 as stated: flattening any record with `_format_diagnosis` and
re-parsing with `parse_diagnosis` recovers every field up to whitespace
normalization. -/
def ClaimC6 : Prop :=
  ∀ (R : Key → Txt) (k : Key),
    parse_diagnosis (format_diagnosis R) k = some (stripC (R k))

/-- Claim C8 as stated: neither diagnosis parser returns a section value that
still carries the trailing `<诊断完成>` marker. -/
def ClaimC8 : Prop :=
  (∀ t k v, parse_diagnosis t k = some v → trails doneMarker v = false) ∧
  (∀ t k, trails doneMarker (host_parse_diagnosis t k) = false)

/-- Oracle for the C1 counterexample: turn 1 disagrees; in loop iteration 0
`analyze_discussion_state` says finalize while the subsequent
`measure_agreement` still returns the continue marker. -/
def cexOracleA : Oracle :=
  { measure1 := .contMarker
    analyze1 := ⟨.continueDiscussion, txt "分歧", []⟩
    loopAnalyze := fun _ => ⟨.finalize, txt "可以结束", []⟩
    loopMeasure := fun _ => .contMarker
    loopConsAnalyze := fun _ => ⟨.continueDiscussion, txt "", []⟩ }

/-- Oracle for the C2 counterexample: the doctors agree at turn 1 and the
host analysis also says finalize, so the run finalizes directly. -/
def cexOracleB : Oracle :=
  { measure1 := .agreeEnd
    analyze1 := ⟨.finalize, txt "一致", []⟩
    loopAnalyze := fun _ => ⟨.finalize, txt "", []⟩
    loopMeasure := fun _ => .contMarker
    loopConsAnalyze := fun _ => ⟨.continueDiscussion, txt "", []⟩ }


theorem leads_nil (l : Txt) : leads [] l = true := rfl

theorem leads_iff_take {p l : Txt} : leads p l = true ↔ l.take p.length = p := by
  induction p generalizing l with
  | nil => simp [leads]
  | cons a p ih =>
    cases l with
    | nil => simp [leads]
    | cons b l =>
      simp only [leads, Bool.and_eq_true, beq_iff_eq, List.length_cons,
        List.take_succ_cons, List.cons.injEq, ih]
      constructor
      · rintro ⟨h1, h2⟩; exact ⟨h1.symm, h2⟩
      · rintro ⟨h1, h2⟩; exact ⟨h1.symm, h2⟩

theorem leads_length {p l : Txt} (h : leads p l = true) : p.length ≤ l.length := by
  rw [leads_iff_take] at h
  have := congrArg List.length h
  simp only [List.length_take] at this
  omega

theorem leads_self_append (p r : Txt) : leads p (p ++ r) = true := by
  rw [leads_iff_take]
  simp [List.take_append_of_le_length (Nat.le_refl _), List.take_left]

theorem leads_getElem {p l : Txt} (h : leads p l = true) (j : Nat) (hj : j < p.length) :
    l.getD j ' ' = p.getD j ' ' := by
  rw [leads_iff_take] at h
  have hlen : p.length ≤ l.length := by
    have := congrArg List.length h
    simp only [List.length_take] at this
    omega
  have : (l.take p.length).getD j ' ' = p.getD j ' ' := by rw [h]
  rwa [List.getD_eq_getElem?_getD, List.getElem?_take, if_pos hj,
    ← List.getD_eq_getElem?_getD] at this

theorem leads_ne_nil {p l : Txt} (hp : p ≠ []) (h : leads p l = true) : l ≠ [] := by
  cases l with
  | nil => cases p with
    | nil => exact absurd rfl hp
    | cons a q => simp [leads] at h
  | cons c t => exact List.cons_ne_nil c t

theorem findSub_some_leads {l pat : Txt} {i : Nat} (h : findSub l pat = some i) :
    leads pat (l.drop i) = true := by
  induction l generalizing i with
  | nil =>
    simp only [findSub] at h
    split at h
    · next he => cases h; subst he; rfl
    · cases h
  | cons c t ih =>
    simp only [findSub] at h
    split at h
    · next hl => cases h; exact hl
    · next hl =>
      cases hfind : findSub t pat with
      | none => rw [hfind] at h; cases h
      | some j =>
        rw [hfind] at h
        simp only [Option.map_some'] at h
        cases h
        simpa using ih hfind

theorem findSub_some_le {l pat : Txt} {i : Nat} (h : findSub l pat = some i) :
    i ≤ l.length := by
  induction l generalizing i with
  | nil =>
    simp only [findSub] at h
    split at h
    · cases h; simp
    · cases h
  | cons c t ih =>
    simp only [findSub] at h
    split at h
    · cases h; simp
    · cases hfind : findSub t pat with
      | none => rw [hfind] at h; cases h
      | some j =>
        rw [hfind] at h
        simp only [Option.map_some'] at h
        cases h
        have := ih hfind
        simp only [List.length_cons]
        omega

theorem findSub_some_bound {l pat : Txt} {i : Nat} (h : findSub l pat = some i) :
    i + pat.length ≤ l.length := by
  have h1 := leads_length (findSub_some_leads h)
  have h2 := findSub_some_le h
  simp only [List.length_drop] at h1
  omega

theorem findSub_eq_none_iff {l pat : Txt} (hp : pat ≠ []) :
    findSub l pat = none ↔ ∀ i, leads pat (l.drop i) = false := by
  induction l with
  | nil =>
    simp only [findSub, if_neg hp, List.drop_nil, true_iff]
    intro i
    cases pat with
    | nil => exact absurd rfl hp
    | cons a q => rfl
  | cons c t ih =>
    simp only [findSub]
    constructor
    · intro h i
      split at h
      · cases h
      · next hl =>
        cases hfind : findSub t pat with
        | some j => rw [hfind] at h; cases h
        | none =>
          cases i with
          | zero => simpa using Bool.eq_false_iff.mpr hl
          | succ i => exact (ih.mp hfind) i
    · intro h
      have h0 := h 0
      simp only [List.drop_zero] at h0
      rw [if_neg (by simp [h0])]
      have : findSub t pat = none := ih.mpr (fun i => h (i + 1))
      simp [this]

theorem findSub_leads {l pat : Txt} (h : leads pat l = true) : findSub l pat = some 0 := by
  cases l with
  | nil =>
    cases pat with
    | nil => rfl
    | cons a q => simp [leads] at h
  | cons c t => simp [findSub, h]

theorem misses_nil (b pat : Txt) : Misses [] b pat := by
  intro i hi
  simp only [List.length_nil] at hi
  exact absurd hi (Nat.not_lt_zero i)

theorem misses_append {x y b pat : Txt} (hx : Misses x (y ++ b) pat)
    (hy : Misses y b pat) : Misses (x ++ y) b pat := by
  intro i hi
  rcases Nat.lt_or_ge i x.length with h | h
  · rw [List.drop_append_of_le_length (Nat.le_of_lt h), List.append_assoc]
    exact hx i h
  · have hilt : i - x.length < y.length := by
      simp only [List.length_append] at hi
      omega
    rw [List.drop_append_eq_append_drop, List.drop_eq_nil_of_le h, List.nil_append]
    exact hy _ hilt

theorem misses_of_head_ne {a b pat : Txt} {c : Char} (hpat : pat.headD ' ' = c)
    (hp : pat ≠ []) (ha : ∀ x ∈ a, x ≠ c) : Misses a b pat := by
  intro i hi
  cases hd : (a.drop i) with
  | nil =>
    have := congrArg List.length hd
    simp only [List.length_drop, List.length_nil] at this
    omega
  | cons d rest =>
    have hmem : d ∈ a := by
      have : d ∈ a.drop i := by rw [hd]; exact List.mem_cons_self d rest
      exact List.mem_of_mem_drop this
    cases pat with
    | nil => exact absurd rfl hp
    | cons pc pq =>
      simp only [List.headD_cons] at hpat
      subst hpat
      simp only [List.cons_append, leads, Bool.and_eq_false_iff, beq_eq_false_iff_ne]
      exact Or.inl (fun he => ha d hmem he.symm)

theorem getD_append_left {a b : Txt} {j : Nat} (h : j < a.length) :
    (a ++ b).getD j ' ' = a.getD j ' ' := by
  rw [List.getD_eq_getElem?_getD, List.getD_eq_getElem?_getD,
    List.getElem?_append, if_pos h]

theorem getD_drop (l : Txt) (i j : Nat) :
    (l.drop i).getD j ' ' = l.getD (i + j) ' ' := by
  rw [List.getD_eq_getElem?_getD, List.getD_eq_getElem?_getD, List.getElem?_drop]

theorem missAllB_sound {a pat : Txt} (h : missAllB a pat = true) (b : Txt) :
    Misses a b pat := by
  intro i hi
  have hcheck := (List.all_eq_true.mp h) i (List.mem_range.mpr hi)
  have ⟨j, hj, hij, hne⟩ := of_decide_eq_true hcheck
  by_contra hcon
  have hlead : leads pat (a.drop i ++ b) = true := by
    cases hlv : leads pat (a.drop i ++ b)
    · exact absurd hlv hcon
    · rfl
  have := leads_getElem hlead j hj
  rw [getD_append_left (by simp only [List.length_drop]; omega)] at this
  rw [getD_drop] at this
  exact hne (by rw [this])

theorem findSub_append_misses {a b pat : Txt} (h : Misses a b pat) :
    findSub (a ++ b) pat = (findSub b pat).map (· + a.length) := by
  induction a with
  | nil =>
    simp only [List.nil_append, List.length_nil]
    cases findSub b pat <;> simp
  | cons c t ih =>
    have h0 : leads pat (c :: (t ++ b)) = false := by
      have := h 0 (by simp)
      simpa using this
    have ht : Misses t b pat := by
      intro i hi
      have := h (i + 1) (by simp only [List.length_cons]; omega)
      simpa using this
    show findSub (c :: (t ++ b)) pat = _
    simp only [findSub]
    rw [if_neg (by simp [h0]), ih ht]
    cases findSub b pat with
    | none => simp
    | some j =>
      simp only [Option.map_some', Option.some.injEq, List.length_cons]
      omega

theorem findSub_append_at {a r pat : Txt} (h : Misses a (pat ++ r) pat) :
    findSub (a ++ (pat ++ r)) pat = some a.length := by
  rw [findSub_append_misses h, findSub_leads (leads_self_append pat r)]
  simp

theorem findSub_none_of_head_ne {l pat : Txt} {c : Char} (hpat : pat.headD ' ' = c)
    (hp : pat ≠ []) (hl : ∀ x ∈ l, x ≠ c) : findSub l pat = none := by
  rw [findSub_eq_none_iff hp]
  intro i
  have := misses_of_head_ne (a := l) (b := []) hpat hp hl
  rcases Nat.lt_or_ge i l.length with h | h
  · have := this i h
    rwa [List.append_nil] at this
  · rw [List.drop_eq_nil_of_le h]
    cases pat with
    | nil => exact absurd rfl hp
    | cons a q => rfl

theorem removeSubAllF_of_none {fuel : Nat} {pat l : Txt}
    (h : findSub l pat = none) : removeSubAllF fuel pat l = l := by
  cases fuel <;> simp [removeSubAllF, h]

theorem removeSubAll_of_none {pat l : Txt} (h : findSub l pat = none) :
    removeSubAll pat l = l := by
  unfold removeSubAll
  split
  · rfl
  · exact removeSubAllF_of_none h

theorem removeHash_of_noHash {l : Txt} (h : ∀ c ∈ l, c ≠ '#') :
    removeHash l = l := by
  unfold removeHash
  apply List.filter_eq_self.mpr
  intro c hc
  simpa using h c hc

theorem length_dropWhile_le (p : Char → Bool) (l : Txt) :
    (l.dropWhile p).length ≤ l.length :=
  (List.dropWhile_suffix p).sublist.length_le

theorem dropWhile_eq_self_of_length {p : Char → Bool} {l : Txt}
    (h : (l.dropWhile p).length = l.length) : l.dropWhile p = l := by
  induction l with
  | nil => rfl
  | cons c t ih =>
    rw [List.dropWhile_cons] at h ⊢
    by_cases hc : p c = true
    · rw [if_pos hc] at h ⊢
      exfalso
      have hle := length_dropWhile_le p t
      simp only [List.length_cons] at h
      omega
    · rw [if_neg hc] at h ⊢

theorem stripL_length_le (l : Txt) : (stripL l).length ≤ l.length :=
  length_dropWhile_le _ _

theorem stripR_length_le (l : Txt) : (stripR l).length ≤ l.length := by
  unfold stripR
  simp only [List.length_reverse]
  have := length_dropWhile_le Char.isWhitespace l.reverse
  simpa using this

theorem stripC_fix_left {v : Txt} (h : stripC v = v) : stripL v = v := by
  have h1 := stripL_length_le v
  have h2 := stripR_length_le (stripL v)
  have h3 : (stripC v).length = v.length := by rw [h]
  unfold stripC at h3
  have : (stripL v).length = v.length := by omega
  exact dropWhile_eq_self_of_length this

theorem stripC_fix_right {v : Txt} (h : stripC v = v) : stripR v = v := by
  have hl := stripC_fix_left h
  unfold stripC at h
  rwa [hl] at h

theorem stripL_cons_of_ws {c : Char} {l : Txt} (h : c.isWhitespace = true) :
    stripL (c :: l) = stripL l := by
  unfold stripL
  rw [List.dropWhile_cons, if_pos h]

theorem stripC_cons_of_ws {c : Char} {l : Txt} (h : c.isWhitespace = true) :
    stripC (c :: l) = stripC l := by
  unfold stripC
  rw [stripL_cons_of_ws h]

theorem stripR_append_of_ws {c : Char} {l : Txt} (h : c.isWhitespace = true) :
    stripR (l ++ [c]) = stripR l := by
  unfold stripR
  rw [List.reverse_append]
  simp only [List.reverse_singleton, List.singleton_append, List.dropWhile_cons,
    if_pos h]

theorem stripC_append_of_ws {c : Char} {l : Txt} (h : c.isWhitespace = true) :
    stripC (l ++ [c]) = stripC l := by
  unfold stripC stripL
  rw [List.dropWhile_append]
  split
  · next he =>
    simp only [List.isEmpty_iff] at he
    rw [he]
    simp [List.dropWhile_cons, if_pos h]
  · exact stripR_append_of_ws h

theorem dropWhile_cons_self {p : Char → Bool} {c : Char} {rest : Txt}
    (h : List.dropWhile p (c :: rest) = c :: rest) : p c = false := by
  by_contra hc
  have hc' : p c = true := by
    cases hv : p c
    · exact absurd hv hc
    · rfl
  rw [List.dropWhile_cons, if_pos hc'] at h
  have := congrArg List.length h
  have hle := length_dropWhile_le p rest
  simp only [List.length_cons] at this
  omega

theorem stripR_append_self {a b : Txt} (hb : stripR b = b) (hne : b ≠ []) :
    stripR (a ++ b) = a ++ b := by
  unfold stripR at hb ⊢
  have hb' : List.dropWhile Char.isWhitespace b.reverse = b.reverse := by
    have := congrArg List.reverse hb
    simpa using this
  rw [List.reverse_append]
  cases hbr : b.reverse with
  | nil =>
    have : b = [] := by
      have := congrArg List.reverse hbr
      simpa using this
    exact absurd this hne
  | cons c rest =>
    rw [hbr] at hb'
    have hc := dropWhile_cons_self hb'
    have hb2 : b = rest.reverse ++ [c] := by
      have := congrArg List.reverse hbr
      simpa using this
    rw [List.cons_append, List.dropWhile_cons, if_neg (by simp [hc])]
    rw [List.reverse_cons, List.reverse_append, List.reverse_reverse, hb2]
    simp [List.append_assoc]

theorem stripL_append_self {a r : Txt} {c : Char} (hr : r = c :: (r.drop 1))
    (hc : c.isWhitespace = false) : stripL (a ++ r) = stripL a ++ r := by
  unfold stripL
  rw [List.dropWhile_append]
  split
  · next he =>
    rw [hr, List.dropWhile_cons, if_neg (by simp [hc])]
    simp only [List.isEmpty_iff] at he
    rw [he, List.nil_append, ← hr]
  · rfl

theorem stripC_wrap {v : Txt} (h : stripC v = v) :
    stripC ('\n' :: (v ++ ['\n'])) = v := by
  rw [stripC_cons_of_ws (by decide), stripC_append_of_ws (by decide), h]

theorem stripC_cons_nl {v : Txt} (h : stripC v = v) : stripC ('\n' :: v) = v := by
  rw [stripC_cons_of_ws (by decide), h]

theorem leads_append_ext {p l r : Txt} (h : leads p l = true) :
    leads p (l ++ r) = true := by
  rw [leads_iff_take] at h ⊢
  rw [List.take_append_of_le_length (leads_length (leads_iff_take.mpr h)), h]

theorem leads_of_append_le {p a b : Txt} (h : leads p (a ++ b) = true)
    (hle : p.length ≤ a.length) : leads p a = true := by
  rw [leads_iff_take] at h ⊢
  rwa [List.take_append_of_le_length hle] at h

theorem getD_append_right_zero (a b : Txt) :
    (a ++ b).getD a.length ' ' = b.getD 0 ' ' := by
  rw [List.getD_eq_getElem?_getD, List.getD_eq_getElem?_getD,
    List.getElem?_append, if_neg (by omega)]
  simp

theorem getD_mem {l : Txt} {j : Nat} (h : j < l.length) : l.getD j ' ' ∈ l := by
  rw [List.getD_eq_getElem?_getD, List.getElem?_eq_getElem h]
  exact List.getElem_mem _

/-- Occurrences survive inside an infix decomposition: if `pat` is absent from
`t = a ++ u ++ b` then it is absent from `u`. -/
theorem findSub_infix_none {t a u b pat : Txt} (hn : findSub t pat = none)
    (hp : pat ≠ []) (ht : t = a ++ (u ++ b)) : findSub u pat = none := by
  rw [findSub_eq_none_iff hp] at hn ⊢
  intro i
  by_contra hcon
  have hlead : leads pat (u.drop i) = true := by
    cases hv : leads pat (u.drop i)
    · exact absurd hv hcon
    · rfl
  rcases Nat.lt_or_ge i u.length with hi | hi
  · have := hn (a.length + i)
    rw [ht, List.drop_append_eq_append_drop, List.drop_eq_nil_of_le (by omega),
      List.nil_append, Nat.add_sub_cancel_left,
      List.drop_append_of_le_length (Nat.le_of_lt hi)] at this
    rw [leads_append_ext hlead] at this
    cases this
  · rw [List.drop_eq_nil_of_le hi] at hlead
    cases pat with
    | nil => exact absurd rfl hp
    | cons pc pq => simp [leads] at hlead

/-- Appending a short newline-headed tail cannot create an occurrence of a
newline-free pattern. -/
theorem findSub_append_short_none {t pat suf : Txt} (hn : findSub t pat = none)
    (hp : pat ≠ []) (hnl : '\n' ∉ pat) (hhd : suf.headD ' ' = '\n')
    (hlen : suf.length < pat.length) : findSub (t ++ suf) pat = none := by
  rw [findSub_eq_none_iff hp] at hn ⊢
  intro i
  by_contra hcon
  have hlead : leads pat ((t ++ suf).drop i) = true := by
    cases hv : leads pat ((t ++ suf).drop i)
    · exact absurd hv hcon
    · rfl
  rcases Nat.lt_or_ge i t.length with hi | hi
  · rw [List.drop_append_of_le_length (Nat.le_of_lt hi)] at hlead
    rcases Nat.lt_or_ge (t.drop i).length pat.length with hshort | hlong
    · have hsufne : suf ≠ [] := by
        intro hemp
        rw [hemp, List.append_nil] at hlead
        have := leads_length hlead
        omega
      have hm : (t.drop i).length < pat.length := hshort
      have := leads_getElem hlead (t.drop i).length hm
      rw [getD_append_right_zero] at this
      have hnlpat : '\n' ∈ pat := by
        have hmem := getD_mem (l := pat) hm
        rw [← this] at hmem
        cases suf with
        | nil => exact absurd rfl hsufne
        | cons sc st =>
          simp only [List.headD_cons] at hhd
          subst hhd
          simpa using hmem
      exact hnl hnlpat
    · have := hn i
      rw [leads_of_append_le hlead hlong] at this
      cases this
  · rw [List.drop_append_eq_append_drop, List.drop_eq_nil_of_le hi,
      List.nil_append] at hlead
    have := leads_length hlead
    have hdl : (suf.drop (i - t.length)).length ≤ suf.length := by
      simp only [List.length_drop]; omega
    omega


theorem labelOf_ne_nil (k : Key) : labelOf k ≠ [] := by
  cases k <;> decide

theorem labelOf_no_nl (k : Key) : '\n' ∉ labelOf k := by
  cases k <;> decide

theorem two_lt_labelOf_length (k : Key) : 2 < (labelOf k).length := by
  cases k <;> decide

theorem stripC_decomp (t : Txt) : ∃ a b, t = a ++ (stripC t ++ b) := by
  have h1 : t = t.takeWhile Char.isWhitespace ++ stripL t :=
    (List.takeWhile_append_dropWhile Char.isWhitespace t).symm
  have h2 : stripL t
      = stripC t ++ ((stripL t).reverse.takeWhile Char.isWhitespace).reverse := by
    unfold stripC stripR
    conv_lhs => rw [← List.reverse_reverse (stripL t),
      ← List.takeWhile_append_dropWhile Char.isWhitespace (stripL t).reverse]
    rw [List.reverse_append]
  exact ⟨t.takeWhile Char.isWhitespace,
    ((stripL t).reverse.takeWhile Char.isWhitespace).reverse, by
      conv_lhs => rw [h1, h2]⟩

theorem parse_diagnosis_none_of_absent {t : Txt} {k : Key}
    (habs : findSub t (labelOf k) = none) : parse_diagnosis t k = none := by
  have h1 : findSub (t ++ nlHash) (labelOf k) = none :=
    findSub_append_short_none habs (labelOf_ne_nil k) (labelOf_no_nl k) rfl
      (by have := two_lt_labelOf_length k; simp only [nlHash, List.length_cons,
        List.length_nil]; omega)
  simp [parse_diagnosis, doctorExtract, h1]

theorem host_parse_empty_of_absent {t : Txt} {k : Key}
    (habs : findSub t (labelOf k) = none) : host_parse_diagnosis t k = [] := by
  obtain ⟨a, b, hdec⟩ := stripC_decomp t
  have h2 : findSub (stripC t) (labelOf k) = none :=
    findSub_infix_none habs (labelOf_ne_nil k) hdec
  have h3 : findSub (stripC t ++ nlnl) (labelOf k) = none :=
    findSub_append_short_none h2 (labelOf_ne_nil k) (labelOf_no_nl k) rfl
      (by have := two_lt_labelOf_length k; simp only [nlnl, List.length_cons,
        List.length_nil]; omega)
  simp [host_parse_diagnosis, hostExtract, h3]

theorem strict_error_of_absent {t : Txt}
    (habs : findSub t (labelOf .sym) = none ∨ findSub t (labelOf .exam) = none) :
    ∃ e, parse_symptom_and_examination_DEPRECATED t = .error e := by
  have hnn : ∀ k : Key, findSub t (labelOf k) = none →
      findSub (stripC t ++ nlnl) (labelOf k) = none := by
    intro k h
    obtain ⟨a, b, hdec⟩ := stripC_decomp t
    have h2 : findSub (stripC t) (labelOf k) = none :=
      findSub_infix_none h (labelOf_ne_nil k) hdec
    exact findSub_append_short_none h2 (labelOf_ne_nil k) (labelOf_no_nl k) rfl
      (by have := two_lt_labelOf_length k; simp only [nlnl, List.length_cons,
        List.length_nil]; omega)
  rcases habs with h | h
  · have hsym : sectionExtractNN (stripC t ++ nlnl) (labelOf .sym) = none := by
      simp [sectionExtractNN, hnn _ h]
    refine ⟨stripC t ++ nlnl, ?_⟩
    simp [parse_symptom_and_examination_DEPRECATED, hsym]
  · have hexam : sectionExtractNN (stripC t ++ nlnl) (labelOf .exam) = none := by
      simp [sectionExtractNN, hnn _ h]
    cases hsym : sectionExtractNN (stripC t ++ nlnl) (labelOf .sym) with
    | none =>
      refine ⟨stripC t ++ nlnl, ?_⟩
      simp [parse_symptom_and_examination_DEPRECATED, hsym]
    | some vs =>
      refine ⟨stripC t ++ nlnl, ?_⟩
      simp [parse_symptom_and_examination_DEPRECATED, hsym, hexam]

/-- C3: a revision output that omits a section leaves that field of the
diagnosis record unchanged — `load_diagnosis` merges, it never clears. -/
theorem c3_merge_preserves_absent_fields (D : DiagRec) (t : Txt) (k : Key)
    (habs : findSub t (labelOf k) = none) :
    load_diagnosis D t k = D k := by
  unfold load_diagnosis
  rw [parse_diagnosis_none_of_absent habs]

theorem c3_merge_preserves_absent_fields_witness :
    findSub (txt "#诊断结果#
流感") (labelOf Key.sym) = none ∧
    load_diagnosis (fun _ => some (txt "旧值")) (txt "#诊断结果#
流感") Key.sym = some (txt "旧值") :=
  ⟨by decide,
   c3_merge_preserves_absent_fields (fun _ => some (txt "旧值")) _ Key.sym (by decide)⟩

/-- C7: when a requested section label is absent, the non-strict parsers
return an empty result instead of raising — `Doctor.parse_diagnosis` omits the
key and `Host.parse_diagnosis` fills `""` — while the strict host-side
symptom/examination parser raises when the mandatory 症状 or 辅助检查 section
is missing. -/
theorem c7_missing_section_policy (t : Txt) (k : Key)
    (habs : findSub t (labelOf k) = none) :
    parse_diagnosis t k = none ∧
    host_parse_diagnosis t k = [] ∧
    ((k = Key.sym ∨ k = Key.exam) →
      ∃ e, parse_symptom_and_examination_DEPRECATED t = .error e) := by
  refine ⟨parse_diagnosis_none_of_absent habs, host_parse_empty_of_absent habs, ?_⟩
  rintro (hk | hk) <;> subst hk
  · exact strict_error_of_absent (Or.inl habs)
  · exact strict_error_of_absent (Or.inr habs)

theorem c7_missing_section_policy_witness :
    findSub (txt "你好，我头痛。") (labelOf Key.sym) = none ∧
    (parse_diagnosis (txt "你好，我头痛。") Key.sym = none ∧
      host_parse_diagnosis (txt "你好，我头痛。") Key.sym = [] ∧
      ((Key.sym = Key.sym ∨ Key.sym = Key.exam) →
        ∃ e, parse_symptom_and_examination_DEPRECATED (txt "你好，我头痛。")
          = .error e)) :=
  ⟨by decide, c7_missing_section_policy (txt "你好，我头痛。") Key.sym (by decide)⟩

/-- C8 counterexample: `Doctor.parse_diagnosis` does not strip the trailing
`<诊断完成>` marker — on `#治疗方案#\nxxx <诊断完成>` it returns the value with
the marker still attached (only `Host.parse_diagnosis`, line 511, removes it). -/
theorem c8_counterexample : ¬ ClaimC8 := by
  intro hc
  have := hc.1 (txt "#治疗方案#
xxx <诊断完成>") Key.plan (txt "xxx <诊断完成>") (by decide)
  have hfalse : trails doneMarker (txt "xxx <诊断完成>") = true := by decide
  rw [this] at hfalse
  cases hfalse

theorem takeWhile_eq_self_of_all {p : Char → Bool} {l : Txt}
    (h : ∀ c ∈ l, p c = true) : l.takeWhile p = l := by
  induction l with
  | nil => rfl
  | cons c t ih =>
    rw [List.takeWhile_cons, if_pos (h c (List.mem_cons_self c t))]
    rw [ih (fun x hx => h x (List.mem_cons_of_mem c hx))]

theorem misses_pair {c : Char} {q : Txt} (hpat : q.getD 1 ' ' = c)
    (hlen : q.length = 2) {a b : Txt} (ha : ∀ x ∈ a, x ≠ c)
    (hb : b.getD 0 ' ' ≠ c) : Misses a b q := by
  intro i hi
  by_contra hcon
  have hlead : leads q (a.drop i ++ b) = true := by
    cases hv : leads q (a.drop i ++ b)
    · exact absurd hv hcon
    · rfl
  have h1 := leads_getElem hlead 1 (by omega)
  rw [hpat] at h1
  rcases Nat.lt_or_ge (i + 1) a.length with h2 | h2
  · have he : (a.drop i ++ b).getD 1 ' ' = a.getD (i + 1) ' ' := by
      rw [getD_append_left (by simp only [List.length_drop]; omega), getD_drop]
    rw [he] at h1
    exact ha _ (getD_mem h2) h1
  · have hlen1 : (a.drop i).length = 1 := by
      simp only [List.length_drop]; omega
    have he : (a.drop i ++ b).getD 1 ' ' = b.getD 0 ' ' := by
      conv_lhs => rw [show (1 : Nat) = (a.drop i).length from hlen1.symm]
      exact getD_append_right_zero _ _
    rw [he] at h1
    exact hb h1

theorem leads_nlHash_getD {b : Txt} (hb : leads nlHash b = true) :
    b.getD 0 ' ' = '\n' := by
  have := leads_getElem hb 0 (by decide)
  simpa [nlHash] using this

/-- Locating one section inside a canonical text: `A` misses the label, the
section span `a'` is `#`-free, and the remainder `b'` starts with `"\n#"`. -/
theorem locate_section {A u v : Txt} {k : Key}
    (hA : Misses A (labelOf k ++ (u ++ v)) (labelOf k))
    (ha : ∀ c ∈ u, c ≠ '#') (hb : leads nlHash v = true) :
    findSub (A ++ (labelOf k ++ (u ++ v))) (labelOf k) = some A.length ∧
    (A ++ (labelOf k ++ (u ++ v))).drop (A.length + (labelOf k).length)
      = u ++ v ∧
    findSub (u ++ v) nlHash = some u.length ∧
    (u ++ v).take u.length = u := by
  refine ⟨?_, ?_, ?_, List.take_left u v⟩
  · rw [findSub_append_misses hA, findSub_leads (leads_self_append _ _)]
    simp
  · rw [show A ++ (labelOf k ++ (u ++ v))
        = (A ++ labelOf k) ++ (u ++ v) by simp [List.append_assoc],
      show A.length + (labelOf k).length = (A ++ labelOf k).length by simp,
      List.drop_left]
  · rw [findSub_append_misses
      (misses_pair (c := '#') (q := nlHash) (by decide) (by decide) ha
        (by rw [leads_nlHash_getD hb]; decide)),
      findSub_leads hb]
    simp

theorem stripC_fix_head {v : Txt} (h : stripC v = v) (hne : v ≠ []) :
    ∃ c rest, v = c :: rest ∧ c.isWhitespace = false := by
  have hl := stripC_fix_left h
  cases v with
  | nil => exact absurd rfl hne
  | cons c rest =>
    exact ⟨c, rest, rfl, dropWhile_cons_self hl⟩

theorem stripC_eq_self_append {a b : Txt}
    (hhead : ∃ c rest, a = c :: rest ∧ c.isWhitespace = false)
    (hb : stripR b = b) (hbne : b ≠ []) : stripC (a ++ b) = a ++ b := by
  obtain ⟨c, rest, ha, hc⟩ := hhead
  subst ha
  unfold stripC
  have hl : stripL (c :: rest ++ b) = c :: rest ++ b := by
    unfold stripL
    rw [List.cons_append, List.dropWhile_cons, if_neg (by simp [hc])]
  rw [hl, stripR_append_self hb hbne]

theorem mem_stripC {c : Char} {v : Txt} (h : c ∈ stripC v) : c ∈ v := by
  obtain ⟨a, b, hdec⟩ := stripC_decomp v
  rw [hdec]
  exact List.mem_append.mpr (Or.inr (List.mem_append.mpr (Or.inl h)))

/-- Doctor-side post-processing of a clean section span `"\n" ++ v`:
stripping recovers `v`, and the label / `#` deletions are no-ops. -/
theorem doctorPost_clean {k : Key} {v : Txt} (hv : ∀ c ∈ v, c ≠ '#')
    (hstrip : stripC v = v) : doctorPost k ('\n' :: v) = v := by
  unfold doctorPost
  rw [stripC_cons_nl hstrip]
  rw [removeSubAll_of_none (findSub_none_of_head_ne (c := '#')
    (by simp [labelOf]) (labelOf_ne_nil k) hv)]
  rw [removeHash_of_noHash hv, hstrip]

theorem doctorPost_clean_wrap {k : Key} {v : Txt} (hv : ∀ c ∈ v, c ≠ '#')
    (hstrip : stripC v = v) : doctorPost k ('\n' :: (v ++ ['\n'])) = v := by
  unfold doctorPost
  rw [stripC_wrap hstrip]
  rw [removeSubAll_of_none (findSub_none_of_head_ne (c := '#')
    (by simp [labelOf]) (labelOf_ne_nil k) hv)]
  rw [removeHash_of_noHash hv, hstrip]

theorem trails_append (x suf : Txt) : trails suf (x ++ suf) = true := by
  unfold trails
  rw [List.reverse_append]
  exact leads_self_append _ _

theorem removeDoneMarkerEnd_append {x : Txt}
    (hx : stripR (x ++ doneMarker) = x ++ doneMarker) :
    removeDoneMarkerEnd (x ++ doneMarker) = x := by
  simp only [removeDoneMarkerEnd, hx, trails_append, if_true]
  rw [List.length_append, Nat.add_sub_cancel]
  exact List.take_left x doneMarker

/-- Amended C8: on a canonical single-section text whose value carries the
trailing `<诊断完成>` marker, `Host.parse_diagnosis` strips the marker while
`Doctor.parse_diagnosis` returns the value with the marker retained. -/
theorem c8_amended_marker_stripping (k : Key) (body : Txt) (hne : body ≠ [])
    (hstrip : stripC body = body) (hhash : ∀ c ∈ body, c ≠ '#') :
    host_parse_diagnosis (labelOf k ++ '\n' :: (body ++ doneMarker)) k = body ∧
    parse_diagnosis (labelOf k ++ '\n' :: (body ++ doneMarker)) k
      = some (body ++ doneMarker) := by
  have hbm : ∀ c ∈ body ++ doneMarker, c ≠ '#' := by
    intro c hc
    rcases List.mem_append.mp hc with h | h
    · exact hhash c h
    · have hdm : '#' ∉ doneMarker := by decide
      exact fun he => hdm (he ▸ h)
  have hsbm : stripC (body ++ doneMarker) = body ++ doneMarker :=
    stripC_eq_self_append (stripC_fix_head hstrip hne) (by decide) (by decide)
  have hrbm : stripR (body ++ doneMarker) = body ++ doneMarker :=
    stripC_fix_right hsbm
  have ha' : ∀ c ∈ '\n' :: (body ++ doneMarker), c ≠ '#' := by
    intro c hc
    rcases List.mem_cons.mp hc with h | h
    · subst h; decide
    · exact hbm c h
  constructor
  · -- host side
    have hstript : stripC (labelOf k ++ '\n' :: (body ++ doneMarker))
        = labelOf k ++ '\n' :: (body ++ doneMarker) := by
      have hbmne : body ++ doneMarker ≠ [] := by
        intro hemp
        have h0 := congrArg List.length hemp
        have h1 : 0 < doneMarker.length := by decide
        simp only [List.length_append, List.length_nil] at h0
        omega
      apply stripC_eq_self_append
      · exact ⟨'#', keyStr k ++ ['#'], rfl, by decide⟩
      · have h1 := stripR_append_self (a := ['\n']) hrbm hbmne
        simpa using h1
      · exact List.cons_ne_nil _ _
    have hshape : stripC (labelOf k ++ '\n' :: (body ++ doneMarker)) ++ nlnl
        = labelOf k ++ (('\n' :: (body ++ doneMarker)) ++ nlnl) := by
      rw [hstript]
      simp [List.append_assoc]
    have hfind : findSub
        (stripC (labelOf k ++ '\n' :: (body ++ doneMarker)) ++ nlnl)
        (labelOf k) = some 0 := by
      rw [hshape]
      exact findSub_leads (leads_self_append _ _)
    have hdrop : (stripC (labelOf k ++ '\n' :: (body ++ doneMarker)) ++ nlnl).drop
        (0 + (labelOf k).length) = ('\n' :: (body ++ doneMarker)) ++ nlnl := by
      rw [hshape, Nat.zero_add, List.drop_left]
    have hcontent : (('\n' :: (body ++ doneMarker)) ++ nlnl).takeWhile (· != '#')
        = ('\n' :: (body ++ doneMarker)) ++ nlnl := by
      apply takeWhile_eq_self_of_all
      intro c hc
      rcases List.mem_append.mp hc with h | h
      · simpa using ha' c h
      · have : c = '\n' := by
          rcases List.mem_cons.mp h with h1 | h1
          · exact h1
          · simpa [nlnl] using h1
        subst this; decide
    have hex : hostExtract (labelOf k ++ '\n' :: (body ++ doneMarker)) k
        = some (('\n' :: (body ++ doneMarker)) ++ nlnl) := by
      simp only [hostExtract, hfind, hdrop, hcontent]
    have hred : host_parse_diagnosis (labelOf k ++ '\n' :: (body ++ doneMarker)) k
        = hostPost k (('\n' :: (body ++ doneMarker)) ++ nlnl) := by
      unfold host_parse_diagnosis
      rw [hex]
    rw [hred]
    unfold hostPost
    have hnofind : findSub (('\n' :: (body ++ doneMarker)) ++ nlnl) (labelOf k)
        = none := by
      apply findSub_none_of_head_ne (c := '#') (by simp [labelOf])
        (labelOf_ne_nil k)
      intro x hx
      rcases List.mem_append.mp hx with h | h
      · exact ha' x h
      · have : x = '\n' := by
          rcases List.mem_cons.mp h with h1 | h1
          · exact h1
          · simpa [nlnl] using h1
        subst this; decide
    rw [removeSubAll_of_none hnofind]
    have hstrip2 : stripC (('\n' :: (body ++ doneMarker)) ++ nlnl)
        = body ++ doneMarker := by
      show stripC ('\n' :: ((body ++ doneMarker) ++ nlnl)) = _
      rw [show (body ++ doneMarker) ++ nlnl
        = (((body ++ doneMarker) ++ ['\n']) ++ ['\n']) by simp [nlnl, List.append_assoc]]
      rw [stripC_cons_of_ws (by decide), stripC_append_of_ws (by decide),
        stripC_append_of_ws (by decide), hsbm]
    rw [hstrip2, removeDoneMarkerEnd_append hrbm, hstrip]
  · -- doctor side
    have hshape : (labelOf k ++ '\n' :: (body ++ doneMarker)) ++ nlHash
        = labelOf k ++ (('\n' :: (body ++ doneMarker)) ++ nlHash) := by
      simp [List.append_assoc]
    obtain ⟨hf, hdrop, hnl, htake⟩ := locate_section (A := [])
      (u := '\n' :: (body ++ doneMarker)) (v := nlHash) (k := k)
      (misses_nil _ _) ha' (by decide)
    simp only [List.nil_append, List.length_nil, Nat.zero_add] at hf hdrop hnl htake
    have hex : doctorExtract (labelOf k ++ '\n' :: (body ++ doneMarker)) k
        = some ('\n' :: (body ++ doneMarker)) := by
      simp only [doctorExtract, hshape, hf, hdrop, hnl, htake, Nat.zero_add]
    have hred : parse_diagnosis (labelOf k ++ '\n' :: (body ++ doneMarker)) k
        = some (doctorPost k ('\n' :: (body ++ doneMarker))) := by
      unfold parse_diagnosis
      rw [hex, Option.map_some']
    rw [hred, doctorPost_clean hbm hsbm]

theorem c8_amended_marker_stripping_witness :
    (txt "休息多喝水" ≠ [] ∧ stripC (txt "休息多喝水") = txt "休息多喝水" ∧
      ∀ c ∈ txt "休息多喝水", c ≠ '#') ∧
    (host_parse_diagnosis
        (labelOf Key.plan ++ '\n' :: (txt "休息多喝水" ++ doneMarker)) Key.plan
      = txt "休息多喝水" ∧
    parse_diagnosis
        (labelOf Key.plan ++ '\n' :: (txt "休息多喝水" ++ doneMarker)) Key.plan
      = some (txt "休息多喝水" ++ doneMarker)) :=
  ⟨⟨by decide, by decide, by decide⟩,
   c8_amended_marker_stripping Key.plan (txt "休息多喝水") (by decide) (by decide)
     (by decide)⟩

/-- C6 counterexample: a record whose 症状 value contains a `#` character is
not recovered by the parse/format round trip — `parse_diagnosis` deletes every
`#` (doctor.py line 144), so `"a#b"` comes back as `"ab"`, which is not a
whitespace difference. -/
theorem c6_counterexample : ¬ ClaimC6 := by
  intro hc
  have h := hc (fun k => match k with | .sym => txt "a#b" | _ => txt "x") Key.sym
  revert h
  decide

theorem missAllB_units (k' k : Key) (hk : k' ≠ k) :
    missAllB (labelOf k' ++ ['\n']) (labelOf k) = true := by
  revert hk
  cases k' <;> cases k <;> decide

theorem misses_block {k' k : Key} (hk : k' ≠ k) {v : Txt}
    (hv : ∀ c ∈ v, c ≠ '#') (b : Txt) :
    Misses (labelOf k' ++ '\n' :: (v ++ nlnl)) b (labelOf k) := by
  have hx : labelOf k' ++ '\n' :: (v ++ nlnl)
      = (labelOf k' ++ ['\n']) ++ (v ++ nlnl) := by
    simp [List.append_assoc]
  rw [hx]
  apply misses_append
  · exact missAllB_sound (missAllB_units k' k hk) _
  · apply misses_of_head_ne (c := '#') (by simp [labelOf]) (labelOf_ne_nil k)
    intro x hx2
    rcases List.mem_append.mp hx2 with h | h
    · exact hv x h
    · have : x = '\n' := by simpa [nlnl] using h
      subst this; decide

theorem leads_nlHash_label (k'' : Key) (rest : Txt) :
    leads nlHash ('\n' :: (labelOf k'' ++ rest)) = true := by
  simp [nlHash, labelOf, leads]

/-- Extracting one key from a canonically shaped text. -/
theorem roundtrip_key {A u v : Txt} {k : Key} {R : Key → Txt}
    (hshape : format_diagnosis R ++ nlHash = A ++ (labelOf k ++ (u ++ v)))
    (hA : Misses A (labelOf k ++ (u ++ v)) (labelOf k))
    (ha : ∀ c ∈ u, c ≠ '#') (hb : leads nlHash v = true)
    (hpost : doctorPost k u = R k) :
    parse_diagnosis (format_diagnosis R) k = some (R k) := by
  obtain ⟨hf, hdrop, hnl, htake⟩ := locate_section hA ha hb
  have hex : doctorExtract (format_diagnosis R) k = some u := by
    simp only [doctorExtract, hshape, hf, hdrop, hnl, htake]
  unfold parse_diagnosis
  rw [hex, Option.map_some', hpost]

/-- Amended C6: the flatten/re-parse round trip recovers every field exactly
for records whose five values are nonempty, already stripped, and free of `#`
characters; the counterexample shows values containing `#` are mangled (the
parser deletes `#` and truncates at `"\n#"`), and an empty value loses its key
because `_format_diagnosis` skips falsy fields. -/
theorem c6_amended_roundtrip (R : Key → Txt)
    (hne : ∀ k, R k ≠ []) (hstrip : ∀ k, stripC (R k) = R k)
    (hhash : ∀ k, ∀ c ∈ R k, c ≠ '#') :
    ∀ k, parse_diagnosis (format_diagnosis R) k = some (R k) := by
  have hne' : ∀ k, (R k = []) = False := fun k => eq_false (hne k)
  have hfmt : format_diagnosis R
      = labelOf Key.sym ++ '\n' :: (R Key.sym ++ nlnl)
        ++ (labelOf Key.exam ++ '\n' :: (R Key.exam ++ nlnl))
        ++ (labelOf Key.res ++ '\n' :: (R Key.res ++ nlnl))
        ++ (labelOf Key.basis ++ '\n' :: (R Key.basis ++ nlnl))
        ++ (labelOf Key.plan ++ '\n' :: R Key.plan) := by
    unfold format_diagnosis keyOrder
    simp only [List.foldl_cons, List.foldl_nil, hne', if_false, List.nil_append]
    have hsplit : ∀ X : Txt,
        X ++ (labelOf Key.plan ++ '\n' :: (R Key.plan ++ nlnl))
        = ((X ++ (labelOf Key.plan ++ '\n' :: R Key.plan)) ++ ['\n']) ++ ['\n'] := by
      intro X; simp [nlnl, List.append_assoc]
    rw [hsplit, stripR_append_of_ws (by decide), stripR_append_of_ws (by decide)]
    have hsplit2 : ∀ X : Txt, X ++ (labelOf Key.plan ++ '\n' :: R Key.plan)
        = (X ++ (labelOf Key.plan ++ ['\n'])) ++ R Key.plan := by
      intro X; simp [List.append_assoc]
    rw [hsplit2, stripR_append_self (stripC_fix_right (hstrip Key.plan))
      (hne Key.plan), ← hsplit2]
  have hwrap : ∀ k, ∀ c ∈ '\n' :: (R k ++ ['\n']), c ≠ '#' := by
    intro k c hc
    rcases List.mem_cons.mp hc with h | h
    · subst h; decide
    · rcases List.mem_append.mp h with h2 | h2
      · exact hhash k c h2
      · have : c = '\n' := by simpa using h2
        subst this; decide
  intro k
  cases k
  case sym =>
    apply roundtrip_key (A := ([] : Txt))
      (u := '\n' :: (R Key.sym ++ ['\n']))
      (v := '\n' :: (labelOf Key.exam ++ ('\n' :: (R Key.exam ++ nlnl)
        ++ ((labelOf Key.res ++ '\n' :: (R Key.res ++ nlnl))
        ++ ((labelOf Key.basis ++ '\n' :: (R Key.basis ++ nlnl))
        ++ ((labelOf Key.plan ++ '\n' :: R Key.plan) ++ nlHash))))))
    · rw [hfmt]; simp [nlnl, List.append_assoc]
    · exact misses_nil _ _
    · exact hwrap Key.sym
    · exact leads_nlHash_label Key.exam _
    · exact doctorPost_clean_wrap (hhash Key.sym) (hstrip Key.sym)
  case exam =>
    apply roundtrip_key
      (A := labelOf Key.sym ++ '\n' :: (R Key.sym ++ nlnl))
      (u := '\n' :: (R Key.exam ++ ['\n']))
      (v := '\n' :: (labelOf Key.res ++ ('\n' :: (R Key.res ++ nlnl)
        ++ ((labelOf Key.basis ++ '\n' :: (R Key.basis ++ nlnl))
        ++ ((labelOf Key.plan ++ '\n' :: R Key.plan) ++ nlHash)))))
    · rw [hfmt]; simp [nlnl, List.append_assoc]
    · exact misses_block (by decide) (hhash Key.sym) _
    · exact hwrap Key.exam
    · exact leads_nlHash_label Key.res _
    · exact doctorPost_clean_wrap (hhash Key.exam) (hstrip Key.exam)
  case res =>
    apply roundtrip_key
      (A := labelOf Key.sym ++ '\n' :: (R Key.sym ++ nlnl)
        ++ (labelOf Key.exam ++ '\n' :: (R Key.exam ++ nlnl)))
      (u := '\n' :: (R Key.res ++ ['\n']))
      (v := '\n' :: (labelOf Key.basis ++ ('\n' :: (R Key.basis ++ nlnl)
        ++ ((labelOf Key.plan ++ '\n' :: R Key.plan) ++ nlHash))))
    · rw [hfmt]; simp [nlnl, List.append_assoc]
    · apply misses_append
      · exact misses_block (by decide) (hhash Key.sym) _
      · exact misses_block (by decide) (hhash Key.exam) _
    · exact hwrap Key.res
    · exact leads_nlHash_label Key.basis _
    · exact doctorPost_clean_wrap (hhash Key.res) (hstrip Key.res)
  case basis =>
    apply roundtrip_key
      (A := labelOf Key.sym ++ '\n' :: (R Key.sym ++ nlnl)
        ++ (labelOf Key.exam ++ '\n' :: (R Key.exam ++ nlnl))
        ++ (labelOf Key.res ++ '\n' :: (R Key.res ++ nlnl)))
      (u := '\n' :: (R Key.basis ++ ['\n']))
      (v := '\n' :: (labelOf Key.plan ++ ('\n' :: R Key.plan ++ nlHash)))
    · rw [hfmt]; simp [nlnl, List.append_assoc]
    · apply misses_append
      · apply misses_append
        · exact misses_block (by decide) (hhash Key.sym) _
        · exact misses_block (by decide) (hhash Key.exam) _
      · exact misses_block (by decide) (hhash Key.res) _
    · exact hwrap Key.basis
    · exact leads_nlHash_label Key.plan _
    · exact doctorPost_clean_wrap (hhash Key.basis) (hstrip Key.basis)
  case plan =>
    apply roundtrip_key
      (A := labelOf Key.sym ++ '\n' :: (R Key.sym ++ nlnl)
        ++ (labelOf Key.exam ++ '\n' :: (R Key.exam ++ nlnl))
        ++ (labelOf Key.res ++ '\n' :: (R Key.res ++ nlnl))
        ++ (labelOf Key.basis ++ '\n' :: (R Key.basis ++ nlnl)))
      (u := '\n' :: R Key.plan)
      (v := nlHash)
    · rw [hfmt]; simp [nlnl, List.append_assoc]
    · apply misses_append
      · apply misses_append
        · apply misses_append
          · exact misses_block (by decide) (hhash Key.sym) _
          · exact misses_block (by decide) (hhash Key.exam) _
        · exact misses_block (by decide) (hhash Key.res) _
      · exact misses_block (by decide) (hhash Key.basis) _
    · intro c hc
      rcases List.mem_cons.mp hc with h | h
      · subst h; decide
      · exact hhash Key.plan c h
    · decide
    · exact doctorPost_clean (hhash Key.plan) (hstrip Key.plan)

theorem dropWhile_idem {p : Char → Bool} (l : Txt) :
    List.dropWhile p (l.dropWhile p) = l.dropWhile p := by
  cases hd : l.dropWhile p with
  | nil => rfl
  | cons c rest =>
    have h0 : 0 < (l.dropWhile p).length := by rw [hd]; simp
    have hnp := List.dropWhile_get_zero_not (p := p) l h0
    have hc : (l.dropWhile p).get ⟨0, h0⟩ = c := by
      simp [hd]
    rw [hc] at hnp
    rw [List.dropWhile_cons, if_neg hnp]

theorem stripR_decomp (x : Txt) :
    x = stripR x ++ (x.reverse.takeWhile Char.isWhitespace).reverse := by
  unfold stripR
  conv_lhs => rw [← List.reverse_reverse x,
    ← List.takeWhile_append_dropWhile Char.isWhitespace x.reverse]
  rw [List.reverse_append]

theorem stripR_idem (l : Txt) : stripR (stripR l) = stripR l := by
  unfold stripR
  rw [List.reverse_reverse, dropWhile_idem]

theorem stripC_idem (l : Txt) : stripC (stripC l) = stripC l := by
  have hR : stripR (stripC l) = stripC l := by
    unfold stripC
    rw [stripR_idem]
  have hL : stripL (stripC l) = stripC l := by
    cases hy : stripC l with
    | nil => rfl
    | cons c rest =>
      have hdec := stripR_decomp (stripL l)
      have hyx : stripC l = stripR (stripL l) := rfl
      rw [← hyx, hy] at hdec
      have hLfix : stripL (stripL l) = stripL l := dropWhile_idem l
      have hws : c.isWhitespace = false := by
        have hthis : List.dropWhile Char.isWhitespace (stripL l) = stripL l := hLfix
        rw [hdec, List.cons_append] at hthis
        exact dropWhile_cons_self hthis
      unfold stripL
      rw [List.dropWhile_cons, if_neg (by simp [hws])]
  show stripR (stripL (stripC l)) = stripC l
  rw [hL, hR]

theorem stripL_append_cons {a r : Txt} {c : Char} (hc : c.isWhitespace = false) :
    stripL (a ++ c :: r) = stripL a ++ c :: r := by
  unfold stripL
  rw [List.dropWhile_append]
  split
  · next he =>
    simp only [List.isEmpty_iff] at he
    rw [he, List.nil_append, List.dropWhile_cons, if_neg (by simp [hc])]
  · rfl

theorem stripR_append_distrib {y c : Txt} (hc : stripR c ≠ []) :
    stripR (y ++ c) = y ++ stripR c := by
  unfold stripR
  rw [List.reverse_append, List.dropWhile_append]
  split
  · next he =>
    exfalso
    apply hc
    simp only [List.isEmpty_iff] at he
    unfold stripR
    rw [he]
    rfl
  · rw [List.reverse_append, List.reverse_reverse]

theorem stripR_append_all_ws {y c : Txt} (hc : stripR c = []) :
    stripR (y ++ c) = stripR y := by
  have hc' : c.reverse.dropWhile Char.isWhitespace = [] := by
    have := congrArg List.reverse hc
    unfold stripR at this
    simpa using this
  unfold stripR
  rw [List.reverse_append, List.dropWhile_append]
  split
  · rfl
  · next hne =>
    rw [hc'] at hne
    simp at hne

theorem stripC_append_ws_list {x w : Txt}
    (hw : ∀ c ∈ w, c.isWhitespace = true) : stripC (x ++ w) = stripC x := by
  induction w using List.reverseRecOn with
  | nil => simp
  | append_singleton w' d ih =>
    rw [← List.append_assoc, stripC_append_of_ws (hw d (by simp))]
    exact ih (fun c hc => hw c (by simp [hc]))

theorem stripC_stripR (c : Txt) : stripC (stripR c) = stripC c := by
  conv_rhs => rw [stripR_decomp c]
  rw [stripC_append_ws_list (fun x hx => by
    have := List.mem_reverse.mp hx
    exact List.mem_takeWhile_imp this)]

theorem mem_stripL {c : Char} {a : Txt} (h : c ∈ stripL a) : c ∈ a :=
  (List.dropWhile_suffix Char.isWhitespace).subset h

theorem mem_stripR {c : Char} {a : Txt} (h : c ∈ stripR a) : c ∈ a := by
  unfold stripR at h
  have := List.mem_reverse.mp ((List.mem_reverse.mpr h : _))
  have h2 : c ∈ a.reverse.dropWhile Char.isWhitespace := List.mem_reverse.mp h
  exact List.mem_reverse.mp ((List.dropWhile_suffix Char.isWhitespace).subset h2)

theorem findSub_none_of_misses {l pat : Txt} (hp : pat ≠ [])
    (h : Misses l [] pat) : findSub l pat = none := by
  rw [findSub_eq_none_iff hp]
  intro i
  rcases Nat.lt_or_ge i l.length with hi | hi
  · have := h i hi
    rwa [List.append_nil] at this
  · rw [List.drop_eq_nil_of_le hi]
    cases pat with
    | nil => exact absurd rfl hp
    | cons a q => rfl

theorem hasSub_of_leads {l pat : Txt} (i : Nat)
    (h : leads pat (l.drop i) = true) : hasSub l pat = true := by
  unfold hasSub
  cases hf : findSub l pat with
  | some j => rfl
  | none =>
    exfalso
    have hp : pat ≠ [] := by
      intro hnil
      subst hnil
      cases l with
      | nil => simp [findSub] at hf
      | cons c t => simp [findSub, leads] at hf
    rw [findSub_eq_none_iff hp] at hf
    rw [hf i] at h
    cases h

/-- C9: `Patient.parse_role_content` classifies every reply into one of the
three targets (`RouteResult` has exactly the three constructors): when both
tags are absent the reply defaults to the doctor with the stripped content;
when only the reporter tag is present it goes to the examiner; and a dual
reply `a <对检查员讲> b <对医生讲> c` (no `<` inside the segments) is split
into the reporter payload `b` and the doctor payload `c` along the tag
boundaries. -/
theorem c9_role_routing :
    (∀ s, findSub (stripC s) tagR = none → findSub (stripC s) tagD = none →
        parse_role_content s = .toDoctor (stripC s)) ∧
    (∀ s, hasSub (stripC s) tagR = true → findSub (stripC s) tagD = none →
        parse_role_content s
          = .toReporter (stripC (removeSubAll tagR (stripC s)))) ∧
    (∀ a b c : Txt, ('<' ∉ a) → ('<' ∉ b) → ('<' ∉ c) →
        parse_role_content (a ++ tagR ++ (b ++ (tagD ++ c)))
          = .dual (stripC b) (stripC c)) := by
  refine ⟨?_, ?_, ?_⟩
  · intro s h1 h2
    have hr : hasSub (stripC s) tagR = false := by
      unfold hasSub; rw [h1]; rfl
    have hd : hasSub (stripC s) tagD = false := by
      unfold hasSub; rw [h2]; rfl
    simp [parse_role_content, hr, hd, removeSubAll_of_none h2, stripC_idem]
  · intro s h1 h2
    have hd : hasSub (stripC s) tagD = false := by
      unfold hasSub; rw [h2]; rfl
    simp [parse_role_content, h1, hd]
  · intro a b c ha hb hc
    have hR : tagR = '<' :: txt "对检查员讲>" := by decide
    have haL : ∀ x ∈ stripL a, x ≠ '<' :=
      fun x hx he => ha (he ▸ mem_stripL hx)
    have hcR : ∀ x ∈ stripR c, x ≠ '<' :=
      fun x hx he => hc (he ▸ mem_stripR hx)
    have hb' : ∀ x ∈ b, x ≠ '<' := fun x hx he => hb (he ▸ hx)
    -- the stripped input
    have hL1 : stripL (a ++ (tagR ++ (b ++ (tagD ++ c))))
        = stripL a ++ (tagR ++ (b ++ (tagD ++ c))) := by
      conv_lhs => rw [hR]
      rw [List.cons_append, stripL_append_cons (by decide), ← List.cons_append,
        ← hR]
    have hs0 : stripC (a ++ tagR ++ (b ++ (tagD ++ c)))
        = stripL a ++ (tagR ++ (b ++ (tagD ++ stripR c))) := by
      have hX : a ++ tagR ++ (b ++ (tagD ++ c))
          = a ++ (tagR ++ (b ++ (tagD ++ c))) := by
        simp [List.append_assoc]
      have hY : stripL a ++ (tagR ++ (b ++ (tagD ++ c)))
          = (stripL a ++ (tagR ++ (b ++ tagD))) ++ c := by
        simp [List.append_assoc]
      by_cases hrc : stripR c = []
      · have hR3 : stripR (stripL a ++ (tagR ++ (b ++ tagD)))
            = stripL a ++ (tagR ++ (b ++ tagD)) := by
          rw [show stripL a ++ (tagR ++ (b ++ tagD))
            = (stripL a ++ (tagR ++ b)) ++ tagD by simp [List.append_assoc]]
          rw [stripR_append_self (by decide) (by decide)]
        unfold stripC
        rw [hX, hL1, hY, stripR_append_all_ws hrc, hR3, hrc]
        simp [List.append_assoc]
      · unfold stripC
        rw [hX, hL1, hY, stripR_append_distrib hrc]
        simp [List.append_assoc]
    -- first tag occurrence
    have hfr : findSub (stripL a ++ (tagR ++ (b ++ (tagD ++ stripR c)))) tagR
        = some (stripL a).length :=
      findSub_append_at (misses_of_head_ne (by decide) (by decide) haL)
    have hhr : hasSub (stripL a ++ (tagR ++ (b ++ (tagD ++ stripR c)))) tagR
        = true := by
      unfold hasSub; rw [hfr]; rfl
    have hdd : (stripL a ++ (tagR ++ (b ++ (tagD ++ stripR c)))).drop
        ((stripL a ++ tagR ++ b).length) = tagD ++ stripR c := by
      rw [show stripL a ++ (tagR ++ (b ++ (tagD ++ stripR c)))
        = (stripL a ++ tagR ++ b) ++ (tagD ++ stripR c) by
          simp [List.append_assoc]]
      exact List.drop_left _ _
    have hhd : hasSub (stripL a ++ (tagR ++ (b ++ (tagD ++ stripR c)))) tagD
        = true :=
      hasSub_of_leads _ (by rw [hdd]; exact leads_self_append _ _)
    -- the text after the first reporter tag
    have hrest : (stripL a ++ (tagR ++ (b ++ (tagD ++ stripR c)))).drop
        ((stripL a).length + tagR.length) = b ++ (tagD ++ stripR c) := by
      rw [show stripL a ++ (tagR ++ (b ++ (tagD ++ stripR c)))
        = (stripL a ++ tagR) ++ (b ++ (tagD ++ stripR c)) by
          simp [List.append_assoc],
        show (stripL a).length + tagR.length = (stripL a ++ tagR).length by
          simp, List.drop_left]
    have hnone1 : findSub (b ++ (tagD ++ stripR c)) tagR = none := by
      apply findSub_none_of_misses (by decide)
      apply misses_append
      · exact misses_of_head_ne (by decide) (by decide) hb'
      · apply misses_append
        · exact missAllB_sound (by decide) _
        · exact misses_of_head_ne (by decide) (by decide) hcR
    have hafter : splitSecond
        (stripL a ++ (tagR ++ (b ++ (tagD ++ stripR c)))) tagR
        = b ++ (tagD ++ stripR c) := by
      simp only [splitSecond, hfr, hrest, hnone1]
    -- the doctor tag inside the after-part
    have hfd : findSub (b ++ (tagD ++ stripR c)) tagD = some b.length :=
      findSub_append_at (misses_of_head_ne (by decide) (by decide) hb')
    have hhd2 : hasSub (b ++ (tagD ++ stripR c)) tagD = true := by
      unfold hasSub; rw [hfd]; rfl
    have hrest2 : (b ++ (tagD ++ stripR c)).drop (b.length + tagD.length)
        = stripR c := by
      rw [show b ++ (tagD ++ stripR c) = (b ++ tagD) ++ stripR c by
          simp [List.append_assoc],
        show b.length + tagD.length = (b ++ tagD).length by simp,
        List.drop_left]
    have hnone2 : findSub (stripR c) tagD = none :=
      findSub_none_of_head_ne (by decide) (by decide) hcR
    have hsplit2 : splitSecond (b ++ (tagD ++ stripR c)) tagD = stripR c := by
      simp only [splitSecond, hfd, hrest2, hnone2]
    have htake : (b ++ (tagD ++ stripR c)).take
        ((findSub (b ++ (tagD ++ stripR c)) tagD).getD 0) = b := by
      rw [hfd]
      exact List.take_left b _
    -- assemble
    simp only [parse_role_content, hs0, hhr, hhd, Bool.and_self, if_true,
      hafter, hhd2, htake, hsplit2, stripC_stripR]

/-- C10: the token-ledger invariant — after any sequence of recording
operations the running totals equal the sums over the interaction records, and
each single operation adds its counts to the totals (so never decreases them)
and appends exactly one interaction record. -/
theorem c10_token_ledger :
    (∀ ops : List TokOp, ledgerInv (runOps ops)) ∧
    (∀ st op,
      (recordTokens st op).total_input_tokens
          = st.total_input_tokens + op.promptTokens ∧
      (recordTokens st op).total_output_tokens
          = st.total_output_tokens + op.completionTokens ∧
      (recordTokens st op).interactions.length = st.interactions.length + 1 ∧
      st.total_input_tokens ≤ (recordTokens st op).total_input_tokens ∧
      st.total_output_tokens ≤ (recordTokens st op).total_output_tokens) := by
  constructor
  · have hstep : ∀ st op, ledgerInv st → ledgerInv (recordTokens st op) := by
      rintro st op ⟨h1, h2⟩
      constructor
      · simp [recordTokens, h1, List.map_append, List.sum_append]
      · simp [recordTokens, h2, List.map_append, List.sum_append]
    have hrun : ∀ (ops : List TokOp) (st : Ledger), ledgerInv st →
        ledgerInv (ops.foldl recordTokens st) := by
      intro ops
      induction ops with
      | nil => intro st h; exact h
      | cons op rest ih =>
        intro st h
        exact ih _ (hstep st op h)
    intro ops
    exact hrun ops Ledger.start ⟨rfl, rfl⟩
  · intro st op
    refine ⟨rfl, rfl, by simp [recordTokens], Nat.le_add_right _ _,
      Nat.le_add_right _ _⟩

theorem revised_peers_nil_of_mem_blk {b : Blk} {t : Nat} {ps : List Nat}
    (h : Ev.revised t ps ∈ blkEvs b) : ps = [] := by
  cases b with
  | pend t2 => simp [blkEvs] at h
  | norm t2 d m ca =>
    simp only [blkEvs, List.append_assoc] at h
    rcases List.mem_append.1 h with h | h
    · simp at h
      exact h.2
    · rcases List.mem_append.1 h with h | h
      · split at h <;> simp at h
      · split at h <;> simp at h

/-- C4: Star-mode isolation — every revision event in every discussion trace
of the Star orchestrator carries an empty peer-doctor list, and
`revise_diagnosis_by_others_in_parallel` called with an empty doctor list
builds a user message that is exactly the critique suffix: no peer block and
no peer doctor identifier enters the prompt. -/
theorem c4_star_isolation :
    (∀ (o : Oracle) (n t : Nat) (ps : List Nat),
        Ev.revised t ps ∈ starTrace o n → ps = []) ∧
    (∀ critique, reviseUserContent [] critique = critiqueSuffix critique) := by
  constructor
  · intro o n t ps h
    simp only [starTrace, List.append_assoc] at h
    rcases List.mem_append.1 h with h | h
    · simp at h
    · split at h
      · rcases List.mem_append.1 h with h | h
        · split at h <;> simp at h
        · simp at h
      · rcases List.mem_cons.1 h with h | h
        · exact (Ev.revised.injEq _ _ _ _ ▸ h).2
        · rcases List.mem_append.1 h with h | h
          · obtain ⟨b, _, hb⟩ := List.mem_flatMap.1 h
            exact revised_peers_nil_of_mem_blk hb
          · split at h <;> simp at h
  · intro critique
    simp [reviseUserContent]

/-- Witness for C4 at concrete inputs. -/
theorem c4_star_isolation_witness :
    (Ev.revised 1 [] ∈ starTrace cexOracleA 1 ∧ ([] : List Nat) = []) ∧
    reviseUserContent [] (txt "补充质疑") = critiqueSuffix (txt "补充质疑") :=
  ⟨⟨by decide, c4_star_isolation.1 cexOracleA 1 1 [] (by decide)⟩,
   c4_star_isolation.2 (txt "补充质疑")⟩

/-- Witness for C9 at concrete inputs: a dual reply is split along the tags. -/
theorem c9_role_routing_witness :
    parse_role_content
        (txt "好的" ++ tagR ++ (txt "我想知道检查结果" ++ (tagD ++ txt "我已经做了检查")))
      = .dual (stripC (txt "我想知道检查结果")) (stripC (txt "我已经做了检查")) :=
  c9_role_routing.2.2 (txt "好的") (txt "我想知道检查结果") (txt "我已经做了检查")
    (by decide) (by decide) (by decide)

/-- Witness for the amended C6 at a concrete record. -/
theorem c6_amended_roundtrip_witness :
    parse_diagnosis
        (format_diagnosis (fun k => match k with
          | Key.sym => txt "发烧"
          | Key.exam => txt "血常规"
          | Key.res => txt "流感"
          | Key.basis => txt "症状符合流感表现"
          | Key.plan => txt "休息多喝水")) Key.res
      = some (txt "流感") :=
  c6_amended_roundtrip _
    (fun k => by cases k <;> decide)
    (fun k => by cases k <;> decide)
    (fun k => by cases k <;> decide)
    Key.res

theorem foldl_blocks_eq (pid : Nat) :
    ∀ (l1 l2 : List DocView) (acc : Txt),
      l1.map (fun d => (d.name, d.diag pid Key.sym, d.diag pid Key.exam))
        = l2.map (fun d => (d.name, d.diag pid Key.sym, d.diag pid Key.exam)) →
      l1.foldl (fun acc d => acc ++ docSymExamBlock pid d) acc
        = l2.foldl (fun acc d => acc ++ docSymExamBlock pid d) acc := by
  intro l1
  induction l1 with
  | nil =>
    intro l2 acc h
    cases l2 with
    | nil => rfl
    | cons d t => simp at h
  | cons d1 t1 ih =>
    intro l2 acc h
    cases l2 with
    | nil => simp at h
    | cons d2 t2 =>
      simp only [List.map_cons, List.cons.injEq, Prod.mk.injEq] at h
      obtain ⟨⟨hn, hs, he⟩, ht⟩ := h
      have hblock : docSymExamBlock pid d1 = docSymExamBlock pid d2 := by
        unfold docSymExamBlock
        rw [hn, hs, he]
      simp only [List.foldl_cons, hblock]
      exact ih t2 (acc ++ docSymExamBlock pid d2) ht

/-- C5: information-flow boundary — the prompt messages of
`Host.get_initial_summary_from_doctors` are a function of the doctors' names
and their self-reported 症状 / 辅助检查 fields at the patient's id alone.  In
particular the patient's hidden medical record and profile never flow in: two
patient objects with the same id, paired with doctor lists agreeing on those
projections, produce identical messages. -/
theorem c5_information_flow (docs1 docs2 : List DocView) (p1 p2 : PatientObj)
    (hid : p1.id = p2.id)
    (hproj : docs1.map (fun d => (d.name, d.diag p1.id Key.sym, d.diag p1.id Key.exam))
      = docs2.map (fun d => (d.name, d.diag p1.id Key.sym, d.diag p1.id Key.exam))) :
    get_initial_summary_messages docs1 p1 = get_initial_summary_messages docs2 p2 := by
  have hn : docs1.map DocView.name = docs2.map DocView.name := by
    have h := congrArg (List.map Prod.fst) hproj
    simpa [List.map_map, Function.comp_def] using h
  have hnames : docs1.map (fun d => txt "医生" ++ d.name)
      = docs2.map (fun d => txt "医生" ++ d.name) := by
    calc docs1.map (fun d => txt "医生" ++ d.name)
        = (docs1.map DocView.name).map (fun n => txt "医生" ++ n) := by
          rw [List.map_map]; rfl
      _ = (docs2.map DocView.name).map (fun n => txt "医生" ++ n) := by rw [hn]
      _ = docs2.map (fun d => txt "医生" ++ d.name) := by
          rw [List.map_map]; rfl
  unfold get_initial_summary_messages
  rw [← hid, hnames, foldl_blocks_eq p1.id docs1 docs2 [] hproj]

/-- Witness for C5: the same doctors with two patients whose hidden records
differ produce the same messages. -/
theorem c5_information_flow_witness :
    get_initial_summary_messages
        [⟨txt "张", fun _ _ => some (txt "咳嗽")⟩, ⟨txt "李", fun _ _ => none⟩]
        ⟨7, txt "资料甲", txt "隐藏病历甲"⟩
      = get_initial_summary_messages
        [⟨txt "张", fun _ _ => some (txt "咳嗽")⟩, ⟨txt "李", fun _ _ => none⟩]
        ⟨7, txt "资料乙", txt "隐藏病历乙"⟩ :=
  c5_information_flow _ _ _ _ rfl rfl

/-- C2 counterexample: when the doctors agree at turn 1 the run finalizes
directly, and the final reporting record reuses turn number 1
(`final_turn_number = current_turn` on that path), so the history's turn
fields are `[1, 1]` — duplicated, not strictly increasing. -/
theorem c2_counterexample : ¬ ClaimC2 (turnsOf cexOracleB 4) := by
  unfold ClaimC2
  decide

theorem runLoop_turns_chain (o : Oracle) :
    ∀ (fuel k : Nat) (pending : Bool),
      List.Chain' (fun a b => b = a ∨ b = a + 1)
        ((k + 1) :: ((runLoop o fuel k pending).flatMap blkRecs).map TurnRec.turn) := by
  intro fuel
  induction fuel with
  | zero => intro k pending; simp [runLoop]
  | succ fuel ih =>
    intro k pending
    cases pending with
    | true =>
      have hrl : runLoop o (fuel + 1) k true = [.pend (k + 2)] := rfl
      rw [hrl]
      simp only [List.flatMap_cons, List.flatMap_nil, List.append_nil, blkRecs,
        List.map_cons, List.map_nil, List.chain'_cons, List.chain'_singleton,
        and_true]
      exact ⟨Or.inr trivial, Or.inr trivial⟩
    | false =>
      have hrl : runLoop o (fuel + 1) k false
          = (if blkEnds (Blk.norm (k + 2) (o.loopAnalyze k) (o.loopMeasure k)
                (o.loopConsAnalyze k))
             then [Blk.norm (k + 2) (o.loopAnalyze k) (o.loopMeasure k)
                (o.loopConsAnalyze k)]
             else Blk.norm (k + 2) (o.loopAnalyze k) (o.loopMeasure k)
                (o.loopConsAnalyze k) ::
                  runLoop o fuel (k + 1)
                    (blkPendOut (Blk.norm (k + 2) (o.loopAnalyze k)
                      (o.loopMeasure k) (o.loopConsAnalyze k)))) := rfl
      rw [hrl]
      by_cases hE : blkEnds (Blk.norm (k + 2) (o.loopAnalyze k) (o.loopMeasure k)
          (o.loopConsAnalyze k))
      · rw [if_pos hE]
        simp only [List.flatMap_cons, List.flatMap_nil, List.append_nil, blkRecs,
          hE, if_true, List.map_cons, List.map_nil, List.chain'_cons,
          List.chain'_singleton, and_true, blkFinalTurn]
        refine ⟨Or.inr trivial, ?_⟩
        split
        · exact Or.inr rfl
        · exact Or.inl rfl
      · rw [if_neg hE]
        simp only [List.flatMap_cons, blkRecs, hE, if_false, List.map_cons,
          List.map_append, List.map_nil, List.nil_append, List.cons_append,
          List.chain'_cons]
        exact ⟨Or.inr trivial,
          ih (k + 1) (blkPendOut (Blk.norm (k + 2) (o.loopAnalyze k)
            (o.loopMeasure k) (o.loopConsAnalyze k)))⟩

/-- Amended C2: in every run the history's turn fields start at 1 and each
record's turn is the previous turn or the previous turn plus one — no gaps,
but the final reporting record may repeat the preceding turn number (both on
the direct-finalize path and on the no-consensus finalize path), so strict
increase and uniqueness do not hold. -/
theorem c2_amended_turn_monotonicity (o : Oracle) (n : Nat) :
    (turnsOf o n).head? = some 1 ∧
    List.Chain' (fun a b => b = a ∨ b = a + 1) (turnsOf o n) := by
  constructor
  · simp [turnsOf, starHist]
  · unfold turnsOf starHist
    by_cases h : o.measure1 = .agreeEnd
    · rw [if_pos h]
      simp only [List.map_cons, List.map_nil, List.chain'_cons,
        List.chain'_singleton, and_true]
      exact Or.inl trivial
    · rw [if_neg h]
      simp only [List.map_cons]
      exact runLoop_turns_chain o n 0 false

theorem opt_or_some {α : Type} (a : α) (b : Option α) : (some a).or b = some a := rfl

theorem mem_of_getLast?_eq {α : Type} {l : List α} {a : α}
    (h : l.getLast? = some a) : a ∈ l := by
  induction l with
  | nil => simp at h
  | cons b t ih =>
    cases t with
    | nil =>
      simp only [List.getLast?_singleton, Option.some.injEq] at h
      simp [h]
    | cons c t2 =>
      rw [List.getLast?_cons_cons] at h
      exact List.mem_cons_of_mem _ (ih h)

theorem getLast?_cons_ne_none {α : Type} (a : α) (l : List α) :
    (a :: l).getLast? ≠ none := by
  induction l generalizing a with
  | nil => simp
  | cons b t ih => rw [List.getLast?_cons_cons]; exact ih b

theorem split_mid {α : Type} {A B pre post : List α} {x : α}
    (h : A ++ B = pre ++ x :: post) :
    (∃ t, A = pre ++ x :: t ∧ post = t ++ B) ∨
    (∃ s, pre = A ++ s ∧ B = s ++ x :: post) := by
  rcases List.append_eq_append_iff.1 h with ⟨s, h1, h2⟩ | ⟨t, h1, h2⟩
  · exact Or.inr ⟨s, h1, h2⟩
  · cases t with
    | nil =>
      refine Or.inr ⟨[], by simpa using h1.symm, ?_⟩
      simpa using h2.symm
    | cons a t =>
      rw [List.cons_append] at h2
      injection h2 with hx hrest
      subst hx
      exact Or.inl ⟨t, h1, hrest⟩

theorem no_mid {α : Type} {l pre post : List α} {x : α}
    (h : l = pre ++ x :: post) (hx : x ∉ l) : False := by
  rw [h] at hx
  exact hx (List.mem_append_right pre (List.mem_cons_self x post))

theorem decomp_right {α : Type} {A B pre post : List α} {x : α}
    (h : A ++ B = pre ++ x :: post) (hx : x ∉ A) :
    ∃ s, pre = A ++ s ∧ B = s ++ x :: post := by
  rcases split_mid h with ⟨t, h1, _⟩ | hr
  · exact absurd h1 (fun h1 => no_mid h1 hx)
  · exact hr

theorem decomp_last {α : Type} {A pre post : List α} {x : α}
    (h : A ++ [x] = pre ++ x :: post) (hx : x ∉ A) :
    pre = A ∧ post = [] := by
  obtain ⟨s, h1, h2⟩ := decomp_right h hx
  cases s with
  | nil =>
    refine ⟨by simpa using h1, ?_⟩
    have h3 := h2.symm
    simp at h3
    exact h3
  | cons a s =>
    rw [List.cons_append] at h2
    injection h2 with _ h3
    exact absurd h3.symm (by simp)

theorem lastMeasEnd_append (a b : List Ev) :
    lastMeasEnd (a ++ b) = (lastMeasEnd b).or (lastMeasEnd a) := by
  unfold lastMeasEnd
  rw [List.filterMap_append, List.getLast?_append]

theorem lastAnalFin_append (a b : List Ev) :
    lastAnalFin (a ++ b) = (lastAnalFin b).or (lastAnalFin a) := by
  unfold lastAnalFin
  rw [List.filterMap_append, List.getLast?_append]

theorem blk_meas_prec {t0 : Nat} {d : HDecision} {m0 : MOut} {ca : HDecision}
    {pre post : List Ev} {m : MOut}
    (h : blkEvs (.norm t0 d m0 ca) = pre ++ .measured m :: post) :
    ∃ t, pre.getLast? = some (.revised t []) := by
  simp only [blkEvs, List.append_assoc, List.cons_append, List.nil_append] at h
  cases pre with
  | nil => simp at h
  | cons e1 pre1 =>
    rw [List.cons_append] at h
    injection h with he1 h
    cases pre1 with
    | nil =>
      rw [List.nil_append] at h
      injection h with he2 h
      simp at he2
    | cons e2 pre2 =>
      rw [List.cons_append] at h
      injection h with he2 h
      cases pre2 with
      | nil =>
        refine ⟨t0, ?_⟩
        rw [← he2]
        simp
      | cons e3 pre3 =>
        rw [List.cons_append] at h
        injection h with he3 h
        split at h <;> split at h <;> exact (no_mid h (by simp)).elim

theorem loop_meas_prec (o : Oracle) :
    ∀ (fuel k : Nat) (pending : Bool) (pre : List Ev) (m : MOut) (post : List Ev),
      (runLoop o fuel k pending).flatMap blkEvs = pre ++ .measured m :: post →
      ∃ t, pre.getLast? = some (.revised t []) := by
  intro fuel
  induction fuel with
  | zero =>
    intro k pending pre m post h
    rw [show runLoop o 0 k pending = [] from rfl] at h
    simp at h
  | succ fuel ih =>
    intro k pending pre m post h
    cases pending with
    | true =>
      rw [show runLoop o (fuel + 1) k true = [.pend (k + 2)] from rfl] at h
      simp only [List.flatMap_cons, List.flatMap_nil, List.append_nil, blkEvs] at h
      exact (no_mid h (by simp)).elim
    | false =>
      rw [show runLoop o (fuel + 1) k false
          = (if blkEnds (Blk.norm (k + 2) (o.loopAnalyze k) (o.loopMeasure k)
                (o.loopConsAnalyze k))
             then [Blk.norm (k + 2) (o.loopAnalyze k) (o.loopMeasure k)
                (o.loopConsAnalyze k)]
             else Blk.norm (k + 2) (o.loopAnalyze k) (o.loopMeasure k)
                (o.loopConsAnalyze k) ::
                  runLoop o fuel (k + 1)
                    (blkPendOut (Blk.norm (k + 2) (o.loopAnalyze k)
                      (o.loopMeasure k) (o.loopConsAnalyze k)))) from rfl] at h
      by_cases hE : blkEnds (Blk.norm (k + 2) (o.loopAnalyze k) (o.loopMeasure k)
          (o.loopConsAnalyze k))
      · rw [if_pos hE] at h
        simp only [List.flatMap_cons, List.flatMap_nil, List.append_nil] at h
        exact blk_meas_prec h
      · rw [if_neg hE] at h
        rw [List.flatMap_cons] at h
        rcases split_mid h with ⟨t, h1, _⟩ | ⟨s, hpre, h2⟩
        · exact blk_meas_prec h1
        · obtain ⟨t, ht⟩ := ih (k + 1) _ s m post h2
          have hne : s ≠ [] := by
            intro h0
            subst h0
            simp at ht
          refine ⟨t, ?_⟩
          subst hpre
          rw [List.getLast?_append, ht, opt_or_some]

theorem star_meas_prec (o : Oracle) (n : Nat) :
    ∀ (pre : List Ev) (m : MOut) (post : List Ev),
      starTrace o n = pre ++ .measured m :: post →
      pre = [] ∨ ∃ t, pre.getLast? = some (.revised t []) := by
  intro pre m post h
  cases pre with
  | nil => exact Or.inl rfl
  | cons e1 pre1 =>
    right
    unfold starTrace at h
    simp only [List.cons_append, List.nil_append] at h
    injection h with he1 h
    cases pre1 with
    | nil =>
      rw [List.nil_append] at h
      injection h with he2 h
      simp at he2
    | cons e2 pre2 =>
      rw [List.cons_append] at h
      injection h with he2 h
      by_cases h1 : o.measure1 = .agreeEnd
      · rw [if_pos h1] at h
        exfalso
        refine no_mid h ?_
        intro hmem
        rcases List.mem_append.1 hmem with hm2 | hm2
        · revert hm2; split <;> simp
        · simp at hm2
      · rw [if_neg h1] at h
        cases pre2 with
        | nil =>
          rw [List.nil_append] at h
          injection h with he3 h
          simp at he3
        | cons e3 pre3 =>
          rw [List.cons_append] at h
          injection h with he3 h
          rcases split_mid h with ⟨t2, hfm, _⟩ | ⟨s2, hs2, hfb⟩
          · obtain ⟨t, ht⟩ := loop_meas_prec o n 0 false pre3 m t2 hfm
            have hne : pre3 ≠ [] := by
              intro h0
              subst h0
              simp at ht
            refine ⟨t, ?_⟩
            rw [show (e1 :: e2 :: e3 :: pre3) = [e1, e2, e3] ++ pre3 from rfl,
              List.getLast?_append, ht, opt_or_some]
          · exfalso
            revert hfb
            split
            · intro hfb
              exact absurd hfb.symm (by simp)
            · intro hfb
              exact no_mid hfb (by simp)

theorem blk_fin_ok {k : Nat} {d : HDecision} {m0 : MOut} {ca : HDecision}
    {pre post : List Ev} (ctx : List Ev)
    (hE : blkEnds (.norm k d m0 ca) = true)
    (h : blkEvs (.norm k d m0 ca) = pre ++ .finalized .viaHistory :: post) :
    lastMeasEnd (ctx ++ pre) = some true ∨ lastAnalFin (ctx ++ pre) = some true := by
  have hbe : blkEvs (.norm k d m0 ca)
      = ([Ev.analyzed d.act, Ev.revised k [], Ev.measured m0]
          ++ (if m0.hasEnd then [Ev.analyzed ca.act] else []))
        ++ [Ev.finalized .viaHistory] := by
    simp [blkEvs, hE]
  rw [hbe] at h
  obtain ⟨hpre, _⟩ := decomp_last h (by
    intro hmem
    rcases List.mem_append.1 hmem with hm2 | hm2
    · simp at hm2
    · revert hm2; split <;> simp)
  subst hpre
  by_cases hm : m0.hasEnd
  · left
    rw [lastMeasEnd_append]
    have h1 : lastMeasEnd ([Ev.analyzed d.act, Ev.revised k [], Ev.measured m0]
        ++ (if m0.hasEnd then [Ev.analyzed ca.act] else [])) = some true := by
      unfold lastMeasEnd
      rw [List.filterMap_append]
      split <;> simp [measFlag, hm]
    rw [h1, opt_or_some]
  · right
    have hm2 : m0.hasEnd = false := by simpa using hm
    have hd : d.act = .finalize := by
      simp [blkEnds, hm2] at hE
      exact hE
    rw [lastAnalFin_append]
    have h1 : lastAnalFin ([Ev.analyzed d.act, Ev.revised k [], Ev.measured m0]
        ++ (if m0.hasEnd then [Ev.analyzed ca.act] else [])) = some true := by
      unfold lastAnalFin
      rw [List.filterMap_append]
      simp [analFlag, hd, hm2]
    rw [h1, opt_or_some]

theorem loop_fin_ok (o : Oracle) :
    ∀ (fuel k : Nat) (pending : Bool) (ctx : List Ev),
      (pending = true → lastMeasEnd ctx = some true) →
      ∀ (pre post : List Ev),
        (runLoop o fuel k pending).flatMap blkEvs
          = pre ++ .finalized .viaHistory :: post →
        lastMeasEnd (ctx ++ pre) = some true ∨ lastAnalFin (ctx ++ pre) = some true := by
  intro fuel
  induction fuel with
  | zero =>
    intro k pending ctx hctx pre post h
    rw [show runLoop o 0 k pending = [] from rfl] at h
    simp at h
  | succ fuel ih =>
    intro k pending ctx hctx pre post h
    cases pending with
    | true =>
      rw [show runLoop o (fuel + 1) k true = [.pend (k + 2)] from rfl] at h
      simp only [List.flatMap_cons, List.flatMap_nil, List.append_nil, blkEvs] at h
      obtain ⟨hpre, _⟩ :=
        decomp_last (A := [Ev.revisedInfo (k + 2)]) (x := Ev.finalized .viaHistory)
          h (by simp)
      subst hpre
      left
      rw [lastMeasEnd_append]
      rw [show lastMeasEnd [Ev.revisedInfo (k + 2)] = none from rfl, Option.none_or]
      exact hctx rfl
    | false =>
      rw [show runLoop o (fuel + 1) k false
          = (if blkEnds (Blk.norm (k + 2) (o.loopAnalyze k) (o.loopMeasure k)
                (o.loopConsAnalyze k))
             then [Blk.norm (k + 2) (o.loopAnalyze k) (o.loopMeasure k)
                (o.loopConsAnalyze k)]
             else Blk.norm (k + 2) (o.loopAnalyze k) (o.loopMeasure k)
                (o.loopConsAnalyze k) ::
                  runLoop o fuel (k + 1)
                    (blkPendOut (Blk.norm (k + 2) (o.loopAnalyze k)
                      (o.loopMeasure k) (o.loopConsAnalyze k)))) from rfl] at h
      by_cases hE : blkEnds (Blk.norm (k + 2) (o.loopAnalyze k) (o.loopMeasure k)
          (o.loopConsAnalyze k))
      · rw [if_pos hE] at h
        simp only [List.flatMap_cons, List.flatMap_nil, List.append_nil] at h
        exact blk_fin_ok ctx hE h
      · rw [if_neg hE] at h
        rw [List.flatMap_cons] at h
        have hE2 : blkEnds (Blk.norm (k + 2) (o.loopAnalyze k) (o.loopMeasure k)
            (o.loopConsAnalyze k)) = false := by simpa using hE
        have hnofin : Ev.finalized .viaHistory ∉ blkEvs (Blk.norm (k + 2)
            (o.loopAnalyze k) (o.loopMeasure k) (o.loopConsAnalyze k)) := by
          simp only [blkEvs, hE2, Bool.false_eq_true, if_false, List.append_nil]
          intro hmem
          rcases List.mem_append.1 hmem with hm2 | hm2
          · simp at hm2
          · revert hm2; split <;> simp
        obtain ⟨s, hpre, h2⟩ := decomp_right h hnofin
        subst hpre
        rw [← List.append_assoc]
        refine ih (k + 1) _ (ctx ++ blkEvs (Blk.norm (k + 2) (o.loopAnalyze k)
          (o.loopMeasure k) (o.loopConsAnalyze k))) ?_ s post h2
        intro hpend
        have hme : (o.loopMeasure k).hasEnd = true := by
          simp only [blkPendOut, normNewInfo, Bool.and_eq_true] at hpend
          exact hpend.1.1
        rw [lastMeasEnd_append]
        have h1 : lastMeasEnd (blkEvs (Blk.norm (k + 2) (o.loopAnalyze k)
            (o.loopMeasure k) (o.loopConsAnalyze k))) = some true := by
          unfold lastMeasEnd
          simp [blkEvs, hE2, List.filterMap_append, measFlag, hme]
        rw [h1, opt_or_some]

theorem star_fin_licensed (o : Oracle) (n : Nat) :
    ∀ (pre post : List Ev),
      starTrace o n = pre ++ .finalized .viaHistory :: post →
      lastMeasEnd pre = some true ∨ lastAnalFin pre = some true := by
  intro pre post h
  unfold starTrace at h
  by_cases h1 : o.measure1 = .agreeEnd
  · rw [if_pos h1] at h
    rw [← List.append_assoc] at h
    obtain ⟨hpre, _⟩ := decomp_last h (by
      intro hmem
      rcases List.mem_append.1 hmem with hm2 | hm2
      · simp at hm2
      · revert hm2; split <;> simp)
    subst hpre
    left
    rw [lastMeasEnd_append]
    have h2 : lastMeasEnd (if turn1GotInfo o then [Ev.revisedInfo 1] else [])
        = none := by
      split <;> rfl
    rw [h2, Option.none_or]
    unfold lastMeasEnd
    simp [measFlag, h1, MOut.hasEnd]
  · rw [if_neg h1] at h
    obtain ⟨s, hpre, h2⟩ := decomp_right
      (A := [Ev.measured o.measure1, Ev.analyzed o.analyze1.act, Ev.revised 1 []])
      h (by simp)
    subst hpre
    rcases split_mid h2 with ⟨t, hfm, _⟩ | ⟨s2, hs2, hfb⟩
    · exact loop_fin_ok o n 0 false
        [Ev.measured o.measure1, Ev.analyzed o.analyze1.act, Ev.revised 1 []]
        (by simp) s t hfm
    · exfalso
      revert hfb
      split
      · intro hfb
        exact absurd hfb.symm (by simp)
      · intro hfb
        cases s2 with
        | nil => simp at hfb
        | cons a s3 =>
          rw [List.cons_append] at hfb
          injection hfb with _ hfb2
          exact absurd hfb2.symm (by simp)

/-- C1 counterexample: with disagreement at turn 1 and a loop iteration whose
`analyze_discussion_state` says finalize while `measure_agreement` still
returns the continue marker, the run finalizes through the history path right
after the continue result, with no revision round in between — the line-876
flag is never reset on the no-consensus branch. -/
theorem c1_counterexample : ¬ ClaimC1 (starTrace cexOracleA 1) := by
  intro hC
  have h := hC.1
    [Ev.measured .contMarker, Ev.analyzed .continueDiscussion, Ev.revised 1 [],
      Ev.analyzed .finalize, Ev.revised 2 []]
    .contMarker [] [] (by decide) (by decide)
  exact absurd h (by decide)

/-- Amended C1: in every run, a history-path finalize that follows a
continue result from `measure_agreement` with no revision round in between is
licensed by the last `analyze_discussion_state` decision before it being
`finalize`; and every history-path finalize follows either an end result from
the last measurement or a `finalize` decision from the last analysis. -/
theorem c1_amended_agreement_consistency (o : Oracle) (n : Nat) :
    AmendedC1 (starTrace o n) := by
  constructor
  · intro pre m mid post heq hm
    by_cases hrev : mid.any isRevision = true
    · exact Or.inl hrev
    · right
      have hnomeas : ∀ e ∈ mid, measFlag e = none := by
        intro e he
        cases e with
        | measured m2 =>
          exfalso
          obtain ⟨mid1, mid2, hsplit⟩ := List.append_of_mem he
          have heq2 : starTrace o n
              = (pre ++ Ev.measured m :: mid1)
                ++ Ev.measured m2 :: (mid2 ++ Ev.finalized .viaHistory :: post) := by
            rw [heq, hsplit]
            simp [List.append_assoc]
          rcases star_meas_prec o n _ m2 _ heq2 with hnil | ⟨t, ht⟩
          · simp at hnil
          · rw [List.getLast?_append] at ht
            cases mid1 with
            | nil =>
              rw [show (Ev.measured m :: ([] : List Ev)).getLast?
                  = some (Ev.measured m) from rfl, opt_or_some] at ht
              simp at ht
            | cons e0 mid1x =>
              rw [List.getLast?_cons_cons] at ht
              cases hy : (e0 :: mid1x).getLast? with
              | none => exact getLast?_cons_ne_none e0 mid1x hy
              | some y =>
                rw [hy, opt_or_some] at ht
                injection ht with hty
                subst hty
                have hmem : Ev.revised t [] ∈ mid := by
                  rw [hsplit]
                  exact List.mem_append_left _ (mem_of_getLast?_eq hy)
                exact hrev (List.any_eq_true.2 ⟨_, hmem, rfl⟩)
        | analyzed a => rfl
        | revised t2 ps => rfl
        | revisedInfo t2 => rfl
        | finalized k2 => rfl
      have heq3 : starTrace o n
          = (pre ++ Ev.measured m :: mid) ++ Ev.finalized .viaHistory :: post := by
        rw [heq]
        simp [List.append_assoc]
      rcases star_fin_licensed o n _ post heq3 with hend | hfin
      · exfalso
        rw [show pre ++ Ev.measured m :: mid = (pre ++ [Ev.measured m]) ++ mid from
          by simp, lastMeasEnd_append] at hend
        have hmidnone : lastMeasEnd mid = none := by
          unfold lastMeasEnd
          rw [List.filterMap_eq_nil_iff.2 hnomeas]
          rfl
        rw [hmidnone, Option.none_or, lastMeasEnd_append,
          show lastMeasEnd [Ev.measured m] = some m.hasEnd from rfl,
          opt_or_some, hm] at hend
        simp at hend
      · exact hfin
  · intro pre post heq
    exact star_fin_licensed o n pre post heq

/-- Witness for the amended C1 at a concrete run. -/
theorem c1_amended_witness :
    lastMeasEnd [Ev.measured MOut.agreeEnd, Ev.analyzed HAct.finalize] = some true ∨
    lastAnalFin [Ev.measured MOut.agreeEnd, Ev.analyzed HAct.finalize] = some true :=
  (c1_amended_agreement_consistency cexOracleB 4).2
    [Ev.measured MOut.agreeEnd, Ev.analyzed HAct.finalize] [] (by decide)
